import Mathlib

/-!
# Verification of the `conduit` pipeline library

A shallow embedding of the Go package `conduit` (chain orchestration,
`conduit.go`) and of its `utils` package (in particular the UTF-8
boundary normalizer `Utf8Conduit` from `utils/utils.go`), together with
proofs and refutations of the specification claims.

Bytes are modelled as `Nat` (values < 256 in all reachable data, byte
masks written with `% 2^k` where Go uses bit masking on `byte`).
Slices of bytes are `List Nat`.  Go slice indexing and sub-slicing
panic when out of bounds; the corresponding operations here are
bounds-checked and return `Option` (a `none` models a Go panic).
Channel sends (`trg <- x`) are modelled by appending `x` to an output
list (value semantics at the moment of the send).
-/

namespace Conduit

/-! ## The Go standard library `unicode/utf8`, shallowly embedded

The functions `DecodeRune`, `DecodeLastRune`, `FullRune` and the
constants `RuneError`/`UTFMax` are the Go standard library routines
used by `Utf8Conduit`.  They are embedded here following the Go
sources (the `first` lookup table and `acceptRanges` are expressed
arithmetically). -/

/-- `utf8.RuneError` = U+FFFD. -/
def RuneError : Nat := 0xFFFD

/-- `utf8.UTFMax` = 4. -/
def UTFMax : Nat := 4

/-- Encoding of `utf8.RuneError` (what `EncodeRune(u.inv, utf8.RuneError)`
writes into the 3-byte buffer `u.inv`). -/
def invMarker : List Nat := [0xEF, 0xBF, 0xBD]

/-- The sequence length recorded for a first byte in Go's `first` table
(`x & 7`).  For ASCII the table stores 0, but every use site compares a
length `n ≥ 1` against it, so recording 1 for ASCII is equivalent. -/
def runeLenX (b : Nat) : Nat :=
  if b < 0x80 then 1
  else if b < 0xC2 then 1
  else if b < 0xE0 then 2
  else if b < 0xF0 then 3
  else if b < 0xF5 then 4
  else 1

/-- Whether a first byte is marked invalid (`xx`) in Go's `first` table:
continuation bytes, the overlong leads 0xC0/0xC1, and 0xF5..0xFF. -/
def FirstInvalid (b : Nat) : Prop :=
  (0x80 ≤ b ∧ b < 0xC2) ∨ 0xF5 ≤ b

instance (b : Nat) : Decidable (FirstInvalid b) := by
  unfold FirstInvalid; infer_instance

/-- Lower bound of Go's `acceptRanges` entry for the second byte. -/
def acceptLo (b : Nat) : Nat :=
  if b = 0xE0 then 0xA0 else if b = 0xF0 then 0x90 else 0x80

/-- Upper bound of Go's `acceptRanges` entry for the second byte. -/
def acceptHi (b : Nat) : Nat :=
  if b = 0xED then 0x9F else if b = 0xF4 then 0x8F else 0xBF

/-- Go's `utf8.RuneStart(b)`: `b & 0xC0 != 0x80`. -/
def runeStart (b : Nat) : Bool :=
  !(0x80 ≤ b && b ≤ 0xBF)

/-- Go's `utf8.DecodeRune(p)`, returning `(r, size)`. -/
def decodeRune (p : List Nat) : Nat × Nat :=
  match p with
  | [] => (RuneError, 0)
  | p0 :: rest =>
    if p0 < 0x80 then (p0, 1)
    else if FirstInvalid p0 then (RuneError, 1)
    else
      let sz := runeLenX p0
      if p.length < sz then (RuneError, 1)
      else
        match rest with
        | [] => (RuneError, 1)
        | b1 :: rest2 =>
          if b1 < acceptLo p0 ∨ acceptHi p0 < b1 then (RuneError, 1)
          else if sz = 2 then ((p0 % 0x20) * 0x40 + b1 % 0x40, 2)
          else
            match rest2 with
            | [] => (RuneError, 1)
            | b2 :: rest3 =>
              if b2 < 0x80 ∨ 0xBF < b2 then (RuneError, 1)
              else if sz = 3 then
                ((p0 % 0x10) * 0x1000 + (b1 % 0x40) * 0x40 + b2 % 0x40, 3)
              else
                match rest3 with
                | [] => (RuneError, 1)
                | b3 :: _ =>
                  if b3 < 0x80 ∨ 0xBF < b3 then (RuneError, 1)
                  else ((p0 % 0x8) * 0x40000 + (b1 % 0x40) * 0x1000 +
                        (b2 % 0x40) * 0x40 + b3 % 0x40, 4)

/-- The backward scan inside `utf8.DecodeLastRune`: positions `i`,
`i-1`, …, `lim` are examined for a rune start; the first hit is
returned, and `lim - 1` (clamped at 0, matching Go's final clamp of a
negative `start`) when there is none.  `cnt` is the number of
positions still to examine, structurally decreasing. -/
def findStart (p : List Nat) (lim : Nat) : Nat → Nat → Nat
  | 0, _ => lim - 1
  | cnt + 1, i => if runeStart (p.getD i 0) then i else findStart p lim cnt (i - 1)

/-- Go's `utf8.DecodeLastRune(p)`, returning `(r, size)`. -/
def decodeLastRune (p : List Nat) : Nat × Nat :=
  if p.length = 0 then (RuneError, 0)
  else
    let e := p.length - 1
    let last := p.getD e 0
    if last < 0x80 then (last, 1)
    else
      let lim := p.length - UTFMax
      -- scan start positions e-1, e-2, ..., lim (that is, (e-1)-lim+1
      -- positions; for p.length = 1 this degenerate call still yields
      -- Go's clamped start 0)
      let start := findStart p lim (e - lim) (e - 1)
      let pr := decodeRune (p.drop start)
      if start + pr.2 ≠ p.length then (RuneError, 1) else pr

/-- Go's `utf8.FullRune(p)`. -/
def fullRune (p : List Nat) : Bool :=
  match p with
  | [] => false
  | b0 :: rest =>
    if p.length ≥ runeLenX b0 then true
    else
      match rest with
      | [] => false
      | b1 :: rest2 =>
        if b1 < acceptLo b0 ∨ acceptHi b0 < b1 then true
        else
          match rest2 with
          | [] => false
          | b2 :: _ => if b2 < 0x80 ∨ 0xBF < b2 then true else false

/-! ## The `Utf8Conduit` state machine (`utils/utils.go`)

The struct fields: `lo []byte` (length `utf8.UTFMax`, allocated by
`NewUtf8Conduit`), `idx int`, and the constant `inv` buffer holding
`invMarker`.  Go's in-place `append` into `tmp := u.lo[:u.idx]`
(capacity 4) writes `u.lo[u.idx] = b`; it is modelled by the checked
write `setB`. -/

structure Utf8St where
  lo : List Nat
  idx : Nat
  deriving Repr, DecidableEq

/-- `NewUtf8Conduit`: `u.lo = make([]byte, utf8.UTFMax)` (zeroed),
`u.idx = 0`. -/
def newUtf8Conduit : Utf8St := ⟨List.replicate UTFMax 0, 0⟩

/-- Bounds-checked write `lo[i] = b` (Go panics when `i ≥ len(lo)`). -/
def setB (lo : List Nat) (i : Nat) (b : Nat) : Option (List Nat) :=
  if i < lo.length then some (lo.set i b) else none

/-- The loop of `addLeftOver`: iterate over the chunk bytes, appending
each to the leftover (in place, via the aliased `append`), testing
`utf8.FullRune` after each append.  Arguments: current `lo`/`idx`,
remaining chunk bytes, count `i` of bytes consumed so far.  Returns
`(lo', idx', cursor, emitted chunks)`. -/
def addLoop (lo : List Nat) (idx : Nat) :
    List Nat → Nat → Option (List Nat × Nat × Nat × List (List Nat))
  | [], i =>
    -- loop exit with i = len(bs): `if u.idx == utf8.UTFMax` then emit
    -- `u.inv`, else "ignore entire buffer" (return s)
    if idx = UTFMax then some (lo, 0, i, [invMarker])
    else some (lo, idx, i, [])
  | b :: rest, i =>
    if idx < UTFMax then
      match setB lo idx b with
      | none => none
      | some lo' =>
        if fullRune (lo'.take (idx + 1)) then
          -- `trg <- tmp`: emit the idx+1 accumulated bytes; `u.idx = 0`
          some (lo', 0, i + 1, [lo'.take (idx + 1)])
        else
          addLoop lo' (idx + 1) rest (i + 1)
    else
      -- loop exit with u.idx = UTFMax
      some (lo, 0, i, [invMarker])

/-- `Utf8Conduit.addLeftOver(bs, trg)`: returns the updated state, the
cursor `n` and the chunks sent to `trg`. -/
def addLeftOver (u : Utf8St) (bs : List Nat) :
    Option (Utf8St × Nat × List (List Nat)) :=
  if u.idx = 0 then some (u, 0, [])
  else
    match addLoop u.lo u.idx bs 0 with
    | none => none
    | some (lo', idx', n, ems) => some (⟨lo', idx'⟩, n, ems)

/-- Store bytes into `lo` starting at `idx` (the
`for i:=l; i<s; i++ { u.lo[u.idx] = bs[i]; u.idx++ }` loops). -/
def storeRange (lo : List Nat) (idx : Nat) : List Nat → Option (List Nat × Nat)
  | [] => some (lo, idx)
  | b :: rest =>
    match setB lo idx b with
    | none => none
    | some lo' => storeRange lo' (idx + 1) rest

/-- The backward scan of `storeLeftOver`: `l` runs from `s-1` down
while `l ≥ 0 && l > s-4`; the first `l` with a valid last rune in
`bs[:l]` is returned.  `cnt` is the number of loop iterations left. -/
def scanBack (bs : List Nat) : Nat → Nat → Option Nat
  | 0, _ => none
  | cnt + 1, l =>
    if (decodeLastRune (bs.take l)).1 ≠ RuneError then some l
    else scanBack bs cnt (l - 1)

/-- `Utf8Conduit.storeLeftOver(bs)`: returns the updated state and the
returned index `l` (the caller emits `bs[:l]`). -/
def storeLeftOver (u : Utf8St) (bs : List Nat) : Option (Utf8St × Nat) :=
  let s := bs.length
  if s = 0 then some (u, 0)
  else if (decodeLastRune bs).1 ≠ RuneError then some (u, s)
  else if s - 1 = 0 then
    -- `u.lo[u.idx] = bs[l]; u.idx++; return s-1`
    match setB u.lo u.idx (bs.getD 0 0) with
    | none => none
    | some lo' => some (⟨lo', u.idx + 1⟩, 0)
  else
    -- scan l = s-1, s-2, ..., s-3 (clamped at 0)
    match scanBack bs (s - (s - 3)) (s - 1) with
    | some l =>
      match storeRange u.lo u.idx (bs.drop l) with
      | none => none
      | some (lo', idx') => some (⟨lo', idx'⟩, l)
    | none =>
      -- `if u.idx == utf8.UTFMax { return s }` (invalid utf)
      if u.idx = UTFMax then some (u, s)
      else
        -- `l++` after the loop fell through: l = max(0, s-3)
        match storeRange u.lo u.idx (bs.drop (s - 3)) with
        | none => none
        | some (lo', idx') => some (⟨lo', idx'⟩, s - 3)

/-- The leftover bytes currently held by the conduit: `u.lo[:u.idx]`. -/
def heldOf (u : Utf8St) : List Nat := u.lo.take u.idx

/-- Well-formedness of a reachable `Utf8Conduit` state: the buffer has
its allocated length `utf8.UTFMax` and the index stays below it. -/
def WfU (u : Utf8St) : Prop := u.lo.length = UTFMax ∧ u.idx ≤ UTFMax - 1

/-- One iteration of the `for inp := range src` loop of
`Utf8Conduit.Conduct` on a byte chunk `bs`: run `addLeftOver`, slice
`b2 := bs[n:]`, run `storeLeftOver`, and emit `b2[:l]` when non-empty.
Go sub-slicing `bs[n:]` requires `n ≤ len(bs)` (else panic). -/
def conductChunk (u : Utf8St) (bs : List Nat) :
    Option (Utf8St × List (List Nat)) :=
  match addLeftOver u bs with
  | none => none
  | some (u1, n, ems) =>
    if n ≤ bs.length then
      let b2 := bs.drop n
      match storeLeftOver u1 b2 with
      | none => none
      | some (u2, l) =>
        if l ≤ b2.length then
          some (u2, ems ++ (if (b2.take l).length > 0 then [b2.take l] else []))
        else none
    else none

/-- `Utf8Conduit.Conduct` over a whole stream of byte chunks (the
`for inp := range src` loop until the source closes).  Returns the
final state and all chunks sent downstream; `none` models a panic. -/
def conductBytes (u : Utf8St) : List (List Nat) → Option (Utf8St × List (List Nat))
  | [] => some (u, [])
  | bs :: rest =>
    match conductChunk u bs with
    | none => none
    | some (u1, outs1) =>
      match conductBytes u1 rest with
      | none => none
      | some (u2, outs2) => some (u2, outs1 ++ outs2)

/-! ## Items and dynamic typing

Items flowing through a chain are `interface{}` values in Go; receivers
perform unchecked type assertions (`inp.([]byte)`), which panic on a
mismatch.  A small closed universe of payloads suffices for the claims
about type mismatches. -/

inductive Item where
  | bytes (bs : List Nat)
  | num (n : Nat)
  deriving Repr, DecidableEq

/-- `Utf8Conduit.Conduct` over a stream of arbitrary items: the
unchecked assertion `bs := inp.([]byte)` panics (`none`) on any item
that is not a byte slice.  The Go method body has a single `return
nil`, so a `some` result always corresponds to a `nil` error return. -/
def conductItems (u : Utf8St) : List Item → Option (Utf8St × List (List Nat))
  | [] => some (u, [])
  | Item.bytes bs :: rest =>
    match conductChunk u bs with
    | none => none
    | some (u1, outs1) =>
      match conductItems u1 rest with
      | none => none
      | some (u2, outs2) => some (u2, outs1 ++ outs2)
  | Item.num _ :: _ => none

/-- `Printer.Consume` in text mode (`NewTextPrinter`): each item is
asserted to `[]byte` (panic on mismatch) and printed as one line.
Returns the printed lines; the Go body always returns `nil`. -/
def printerConsumeText : List Item → Option (List (List Nat))
  | [] => some []
  | Item.bytes bs :: rest =>
    match printerConsumeText rest with
    | none => none
    | some lines => some (bs :: lines)
  | Item.num _ :: _ => none

/-! ## Specification-side predicates: valid UTF-8 text

These formalise the spec's notion of "valid multi-character UTF-8
text": a byte sequence that is a concatenation of standard UTF-8
encodings of single characters (no overlong forms, no surrogates,
matching Go's accept table). -/

/-- `goodEncB c`: `c` is exactly one valid UTF-8 character encoding. -/
def goodEncB : List Nat → Bool
  | [b0] => b0 < 0x80
  | [b0, b1] =>
    0xC2 ≤ b0 && b0 ≤ 0xDF && (acceptLo b0 ≤ b1 && b1 ≤ acceptHi b0)
  | [b0, b1, b2] =>
    0xE0 ≤ b0 && b0 ≤ 0xEF && (acceptLo b0 ≤ b1 && b1 ≤ acceptHi b0) &&
    (0x80 ≤ b2 && b2 ≤ 0xBF)
  | [b0, b1, b2, b3] =>
    0xF0 ≤ b0 && b0 ≤ 0xF4 && (acceptLo b0 ≤ b1 && b1 ≤ acceptHi b0) &&
    (0x80 ≤ b2 && b2 ≤ 0xBF) && (0x80 ≤ b3 && b3 ≤ 0xBF)
  | _ => false

/-- A valid character encoding other than the one of U+FFFD. -/
def cleanEncB (c : List Nat) : Bool := goodEncB c && c ≠ invMarker

/-- Greedy UTF-8 parser with fuel (the lead byte determines the only
possible encoding length, so greedy parsing is complete). -/
def parseB : Nat → List Nat → Bool
  | _, [] => true
  | 0, _ :: _ => false
  | fuel + 1, b :: rest =>
    goodEncB ((b :: rest).take (runeLenX b)) &&
    parseB fuel ((b :: rest).drop (runeLenX b))

/-- `bs` is valid UTF-8 text: a concatenation of valid encodings. -/
def validB (bs : List Nat) : Bool := parseB bs.length bs

/-- `bs` is a concatenation of clean encodings (valid, no U+FFFD). -/
def CleanJoin (bs : List Nat) : Prop :=
  ∃ cs : List (List Nat), bs = cs.flatten ∧ ∀ c ∈ cs, cleanEncB c = true

/-- Alignment of a leftover `h` with the remaining byte stream `rest`:
either nothing is held and the rest is clean text, or `h` is a proper
non-empty prefix of the encoding of the next character. -/
def Aligned (h rest : List Nat) : Prop :=
  (h = [] ∧ CleanJoin rest) ∨
  (∃ c j t, cleanEncB c = true ∧ 1 ≤ j ∧ j < c.length ∧
    h = c.take j ∧ rest = c.drop j ++ t ∧ CleanJoin t)

/-! ## The chain orchestrator (`conduit.go`)

`Chain.Run` starts one goroutine per Conduit (`pipe2pipe`) and one for
the Producer, and runs the Consumer on the calling goroutine; stages
communicate through buffered channels of capacity `ch.sz`.  This is
embedded as a small-step transition relation over the whole system
state: each transition is one atomic action of one stage (a channel
send, a channel receive, or a stage completing — the completing stage
records its error with `addErr` and then closes its output channel,
which is one observable atomic unit since downstream only acts after
observing the close).

Conduit behaviours are restricted to the shapes exercised by the
claims and the package's own tests: a pass-through conduit
(`Identity`/`BaseConduit`: `budget = none`) forwards every item, and an
`ErrConduit`-style conduit (`budget = some k`) forwards `k` items and
then returns an error upon receiving the next one (consuming it).  The
producer sends its scripted items and then completes (optionally with
a scripted error); the consumer receives until closure (optionally
failing at the end with a scripted error).  `res = some b` records that
`Run` has performed its final `if ch.e` check and returned (`b` = a
non-nil "Errors occurred" return). -/

/-- A channel: buffered FIFO contents plus its closed flag. -/
structure QSt (α : Type) where
  buf : List α
  closed : Bool
  deriving Repr, DecidableEq

/-- One conduit's behaviour script and completion flag. -/
structure CondSt where
  budget : Option Nat
  ecode : Nat
  done : Bool
  deriving Repr, DecidableEq

/-- The part of the system downstream of the producer: the first feed,
then alternating conduits and feeds, ending at the sink's collected
items. -/
inductive Pipe (α : Type) where
  | last (q : QSt α) (recvd : List α)
  | cell (q : QSt α) (c : CondSt) (rest : Pipe α)
  deriving Repr, DecidableEq

/-- Whole-system state for one `Run()`. -/
structure ChSt (α : Type) where
  prodRem : List α
  prodErr : Option Nat
  prodDone : Bool
  pipe : Pipe α
  errs : List Nat
  sinkErr : Option Nat
  res : Option Bool
  deriving Repr, DecidableEq

namespace Pipe

/-- The first feed of the pipe segment. -/
def headQ {α} : Pipe α → QSt α
  | .last q _ => q
  | .cell q _ _ => q

/-- Send an item on the first feed. -/
def pushHead {α} : Pipe α → α → Pipe α
  | .last q r, x => .last ⟨q.buf ++ [x], q.closed⟩ r
  | .cell q c rest, x => .cell ⟨q.buf ++ [x], q.closed⟩ c rest

/-- Close the first feed for writing. -/
def closeHead {α} : Pipe α → Pipe α
  | .last q r => .last ⟨q.buf, true⟩ r
  | .cell q c rest => .cell ⟨q.buf, true⟩ c rest

/-- Items currently in the segment, oldest first (sink side first). -/
def items {α} : Pipe α → List α
  | .last q r => r ++ q.buf
  | .cell q _ rest => items rest ++ q.buf

/-- What the sink has received. -/
def recvd {α} : Pipe α → List α
  | .last _ r => r
  | .cell _ _ rest => recvd rest

/-- The closed flag of the final feed (the sink's input). -/
def lastClosed {α} : Pipe α → Bool
  | .last q _ => q.closed
  | .cell _ _ rest => lastClosed rest

/-- All conduits are pass-through. -/
def passThrough {α} : Pipe α → Prop
  | .last _ _ => True
  | .cell _ c rest => c.budget = none ∧ passThrough rest

/-- All conduits have completed. -/
def allDone {α} : Pipe α → Prop
  | .last _ _ => True
  | .cell _ c rest => c.done = true ∧ allDone rest

/-- All feeds are drained. -/
def allEmpty {α} : Pipe α → Prop
  | .last q _ => q.buf = []
  | .cell q _ rest => q.buf = [] ∧ allEmpty rest

/-- Structural invariant: a feed is closed exactly when the stage
writing to it has completed (inside the segment: the conduit reading
feed `i` writes feed `i+1`). -/
def wf {α} : Pipe α → Prop
  | .last _ _ => True
  | .cell _ c rest => ((headQ rest).closed = c.done) ∧ wf rest

/-- Conditional drain invariant: every completed conduit saw its input
feed closed and drained when it finished (true as long as no error has
been recorded, since an errorless completion is a `range` exhaustion). -/
def doneDrained {α} : Pipe α → Prop
  | .last _ _ => True
  | .cell q c rest => (c.done = true → q.closed = true ∧ q.buf = []) ∧ doneDrained rest

end Pipe

/-- Decrement an `ErrConduit` budget when forwarding one item. -/
def decBudget (c : CondSt) : CondSt :=
  ⟨c.budget.map (· - 1), c.ecode, c.done⟩

/-- One transition inside the pipe segment.  `C` is the feed capacity
`ch.sz`, `serr` the sink's scripted error.  The relation carries the
shared `ErrorLog` (`ch.Errs`, guarded by `ch.door`) and the pending
`Run` result. -/
inductive PStep {α : Type} (C : Nat) (serr : Option Nat) :
    Pipe α → List Nat → Option Bool → Pipe α → List Nat → Option Bool → Prop
  | condMove (q : QSt α) (c : CondSt) (rest : Pipe α) (x : α) (bs : List α)
      (errs : List Nat) (res : Option Bool) :
      c.done = false → c.budget ≠ some 0 → q.buf = x :: bs →
      (Pipe.headQ rest).buf.length < C →
      PStep C serr (.cell q c rest) errs res
        (.cell ⟨bs, q.closed⟩ (decBudget c) (rest.pushHead x)) errs res
  | condFail (q : QSt α) (c : CondSt) (rest : Pipe α) (x : α) (bs : List α)
      (errs : List Nat) (res : Option Bool) :
      c.done = false → c.budget = some 0 → q.buf = x :: bs →
      PStep C serr (.cell q c rest) errs res
        (.cell ⟨bs, q.closed⟩ ⟨c.budget, c.ecode, true⟩ rest.closeHead)
        (errs ++ [c.ecode]) res
  | condFinish (q : QSt α) (c : CondSt) (rest : Pipe α)
      (errs : List Nat) (res : Option Bool) :
      c.done = false → q.buf = [] → q.closed = true →
      PStep C serr (.cell q c rest) errs res
        (.cell q ⟨c.budget, c.ecode, true⟩ rest.closeHead) errs res
  | sinkTake (q : QSt α) (recvd : List α) (x : α) (bs : List α)
      (errs : List Nat) (res : Option Bool) :
      res = none → q.buf = x :: bs →
      PStep C serr (.last q recvd) errs res
        (.last ⟨bs, q.closed⟩ (recvd ++ [x])) errs res
  | sinkFinish (q : QSt α) (recvd : List α) (errs : List Nat)
      (res : Option Bool) :
      res = none → q.buf = [] → q.closed = true →
      PStep C serr (.last q recvd) errs res
        (.last q recvd) (errs ++ serr.toList)
        (some (decide (errs ++ serr.toList ≠ [])))
  | inner (q : QSt α) (c : CondSt) (rest rest' : Pipe α)
      (errs errs' : List Nat) (res res' : Option Bool) :
      PStep C serr rest errs res rest' errs' res' →
      PStep C serr (.cell q c rest) errs res (.cell q c rest') errs' res'

/-- One transition of the whole system. -/
inductive Step {α : Type} (C : Nat) : ChSt α → ChSt α → Prop
  | prodSend (σ : ChSt α) (x : α) (xs : List α) :
      σ.prodDone = false → σ.prodRem = x :: xs →
      (Pipe.headQ σ.pipe).buf.length < C →
      Step C σ { σ with prodRem := xs, pipe := σ.pipe.pushHead x }
  | prodClose (σ : ChSt α) :
      σ.prodDone = false → σ.prodRem = [] →
      Step C σ { σ with prodDone := true, pipe := σ.pipe.closeHead,
                        errs := σ.errs ++ σ.prodErr.toList }
  | pipe (σ : ChSt α) (pipe' : Pipe α) (errs' : List Nat) (res' : Option Bool) :
      PStep C σ.sinkErr σ.pipe σ.errs σ.res pipe' errs' res' →
      Step C σ { σ with pipe := pipe', errs := errs', res := res' }

/-- No transition is possible: all goroutines are finished or blocked
forever. -/
def Terminal {α : Type} (C : Nat) (σ : ChSt α) : Prop :=
  ∀ σ' : ChSt α, ¬ Step C σ σ'

/-- The freshly wired pipe segment: feeds of `Run`'s step 2, conduit
scripts from `ch.pipe`. -/
def initPipe (α : Type) : List (Option Nat × Nat) → Pipe α
  | [] => .last ⟨[], false⟩ []
  | (b, e) :: rest => .cell ⟨[], false⟩ ⟨b, e, false⟩ (initPipe α rest)

/-- System state at the start of `Run()` (after `ch.reset()`). -/
def initSt {α : Type} (itemsP : List α) (perr : Option Nat)
    (conds : List (Option Nat × Nat)) (serr : Option Nat) : ChSt α :=
  ⟨itemsP, perr, false, initPipe α conds, [], serr, none⟩

/-- Reachability from the initial state of a run. -/
def Reach {α : Type} (C : Nat) (σ₀ σ : ChSt α) : Prop :=
  Relation.ReflTransGen (Step C) σ₀ σ

/-! ## `NewChain` (static construction) -/

/-- The `Chain` struct as built by `NewChain` (the mutex is state-free
and omitted): buffer size, error flag `e`, producer, consumer, pipe,
and `Errs`. -/
structure GoChain (P K W : Type) where
  sz : Nat
  e : Bool
  p : P
  c : W
  pipe : List K
  errs : List Nat

/-- `NewChain(p, pipe, c, sz)`: returns `nil` (`none`) when the
producer or consumer is `nil`; otherwise allocates the chain and sets
every field (`ch.e = false`, `ch.Errs = nil`). -/
def NewChain {P K W : Type} (p : Option P) (pipe : List K) (c : Option W)
    (sz : Nat) : Option (GoChain P K W) :=
  match p, c with
  | some p, some c => some ⟨sz, false, p, c, pipe, []⟩
  | _, _ => none

/-- The final feed (the sink's input). -/
def Pipe.lastQ {α} : Pipe α → QSt α
  | .last q _ => q
  | .cell _ _ rest => lastQ rest

/-- The buffer of the final feed. -/
def Pipe.lastBuf {α} (p : Pipe α) : List α := (Pipe.lastQ p).buf

/-- The run invariant: structural well-formedness plus the facts the
claims need.  `itemsP` is the producer's full script. -/
def Inv {α : Type} (itemsP : List α) (σ : ChSt α) : Prop :=
  σ.pipe.wf ∧
  (Pipe.headQ σ.pipe).closed = σ.prodDone ∧
  (σ.prodDone = true → σ.prodRem = []) ∧
  (σ.errs = [] → σ.pipe.doneDrained) ∧
  (σ.pipe.passThrough → σ.pipe.items ++ σ.prodRem = itemsP) ∧
  (σ.res = some false → σ.errs = [] ∧ σ.prodDone = true ∧
    σ.pipe.allDone ∧ σ.pipe.allEmpty) ∧
  (σ.res = some true → σ.errs ≠ [])

end Conduit

namespace Conduit

/-! ## Structural facts about valid encodings -/

theorem accept_range {b b1 : Nat} (h1 : acceptLo b ≤ b1) (h2 : b1 ≤ acceptHi b) :
    0x80 ≤ b1 ∧ b1 ≤ 0xBF := by
  unfold acceptLo at h1
  unfold acceptHi at h2
  split_ifs at h1 h2 <;> omega

theorem goodEnc_shape {c : List Nat} (h : goodEncB c = true) :
    (∃ b0, c = [b0] ∧ b0 < 0x80) ∨
    (∃ b0 b1, c = [b0, b1] ∧ 0xC2 ≤ b0 ∧ b0 ≤ 0xDF ∧
      acceptLo b0 ≤ b1 ∧ b1 ≤ acceptHi b0) ∨
    (∃ b0 b1 b2, c = [b0, b1, b2] ∧ 0xE0 ≤ b0 ∧ b0 ≤ 0xEF ∧
      acceptLo b0 ≤ b1 ∧ b1 ≤ acceptHi b0 ∧ 0x80 ≤ b2 ∧ b2 ≤ 0xBF) ∨
    (∃ b0 b1 b2 b3, c = [b0, b1, b2, b3] ∧ 0xF0 ≤ b0 ∧ b0 ≤ 0xF4 ∧
      acceptLo b0 ≤ b1 ∧ b1 ≤ acceptHi b0 ∧ 0x80 ≤ b2 ∧ b2 ≤ 0xBF ∧
      0x80 ≤ b3 ∧ b3 ≤ 0xBF) := by
  match c with
  | [] => simp [goodEncB] at h
  | [b0] =>
    simp only [goodEncB, decide_eq_true_eq] at h
    exact Or.inl ⟨b0, rfl, h⟩
  | [b0, b1] =>
    simp only [goodEncB, Bool.and_eq_true, decide_eq_true_eq] at h
    exact Or.inr (Or.inl ⟨b0, b1, rfl, h.1.1, h.1.2, h.2.1, h.2.2⟩)
  | [b0, b1, b2] =>
    simp only [goodEncB, Bool.and_eq_true, decide_eq_true_eq] at h
    exact Or.inr (Or.inr (Or.inl ⟨b0, b1, b2, rfl, h.1.1.1, h.1.1.2,
      h.1.2.1, h.1.2.2, h.2.1, h.2.2⟩))
  | [b0, b1, b2, b3] =>
    simp only [goodEncB, Bool.and_eq_true, decide_eq_true_eq] at h
    exact Or.inr (Or.inr (Or.inr ⟨b0, b1, b2, b3, rfl, h.1.1.1.1, h.1.1.1.2,
      h.1.1.2.1, h.1.1.2.2, h.1.2.1, h.1.2.2, h.2.1, h.2.2⟩))
  | _ :: _ :: _ :: _ :: _ :: _ => simp [goodEncB] at h

theorem goodEnc_len {c : List Nat} (h : goodEncB c = true) :
    1 ≤ c.length ∧ c.length ≤ 4 := by
  rcases goodEnc_shape h with ⟨b0, rfl, _⟩ | ⟨b0, b1, rfl, _⟩ |
    ⟨b0, b1, b2, rfl, _⟩ | ⟨b0, b1, b2, b3, rfl, _⟩ <;> simp

theorem goodEnc_runeLen {c : List Nat} (h : goodEncB c = true) :
    runeLenX (c.getD 0 0) = c.length := by
  rcases goodEnc_shape h with ⟨b0, rfl, h0⟩ | ⟨b0, b1, rfl, h0, h1, _⟩ |
    ⟨b0, b1, b2, rfl, h0, h1, _⟩ | ⟨b0, b1, b2, b3, rfl, h0, h1, _⟩ <;>
    simp only [List.getD_cons_zero, List.length_cons, List.length_nil,
      runeLenX] <;> split_ifs <;> omega

theorem goodEnc_head {c : List Nat} (h : goodEncB c = true) :
    c.getD 0 0 < 0x80 ∨ (0xC2 ≤ c.getD 0 0 ∧ c.getD 0 0 ≤ 0xF4) := by
  rcases goodEnc_shape h with ⟨b0, rfl, h0⟩ | ⟨b0, b1, rfl, h0, h1, _⟩ |
    ⟨b0, b1, b2, rfl, h0, h1, _⟩ | ⟨b0, b1, b2, b3, rfl, h0, h1, _⟩ <;>
    simp only [List.getD_cons_zero] <;> omega

theorem goodEnc_head_multi {c : List Nat} (h : goodEncB c = true)
    (h2 : 2 ≤ c.length) : 0xC2 ≤ c.getD 0 0 ∧ c.getD 0 0 ≤ 0xF4 := by
  rcases goodEnc_shape h with ⟨b0, rfl, h0⟩ | ⟨b0, b1, rfl, h0, h1, _⟩ |
    ⟨b0, b1, b2, rfl, h0, h1, _⟩ | ⟨b0, b1, b2, b3, rfl, h0, h1, _⟩ <;>
    simp only [List.getD_cons_zero] <;> simp at h2 ⊢ <;> omega

theorem decodeRune_ascii {b0 : Nat} (h : b0 < 0x80) (rest : List Nat) :
    decodeRune (b0 :: rest) = (b0, 1) := by
  simp [decodeRune, h]

theorem runeLenX_eq_two {b : Nat} : runeLenX b = 2 ↔ 0xC2 ≤ b ∧ b < 0xE0 := by
  unfold runeLenX; split_ifs <;> omega

theorem runeLenX_eq_three {b : Nat} : runeLenX b = 3 ↔ 0xE0 ≤ b ∧ b < 0xF0 := by
  unfold runeLenX; split_ifs <;> omega

theorem runeLenX_eq_four {b : Nat} : runeLenX b = 4 ↔ 0xF0 ≤ b ∧ b < 0xF5 := by
  unfold runeLenX; split_ifs <;> omega

theorem runeLenX_range {b : Nat} (hA : ¬ b < 0x80) (hFI : ¬ FirstInvalid b) :
    2 ≤ runeLenX b ∧ runeLenX b ≤ 4 := by
  unfold FirstInvalid at hFI; unfold runeLenX; split_ifs <;> omega

theorem decodeRune_two {b0 b1 : Nat} (h0 : 0xC2 ≤ b0) (h0' : b0 ≤ 0xDF)
    (ha : acceptLo b0 ≤ b1) (hb : b1 ≤ acceptHi b0) (rest : List Nat) :
    decodeRune (b0 :: b1 :: rest) = ((b0 % 0x20) * 0x40 + b1 % 0x40, 2) := by
  have hsz : runeLenX b0 = 2 := runeLenX_eq_two.mpr (by omega)
  simp only [decodeRune, hsz, List.length_cons, FirstInvalid]
  split_ifs <;> first | rfl | (exfalso; omega)

theorem decodeRune_three {b0 b1 b2 : Nat} (h0 : 0xE0 ≤ b0) (h0' : b0 ≤ 0xEF)
    (ha : acceptLo b0 ≤ b1) (hb : b1 ≤ acceptHi b0)
    (hc : 0x80 ≤ b2) (hd : b2 ≤ 0xBF) (rest : List Nat) :
    decodeRune (b0 :: b1 :: b2 :: rest) =
      ((b0 % 0x10) * 0x1000 + (b1 % 0x40) * 0x40 + b2 % 0x40, 3) := by
  have hsz : runeLenX b0 = 3 := runeLenX_eq_three.mpr (by omega)
  simp only [decodeRune, hsz, List.length_cons, FirstInvalid]
  split_ifs <;> first | rfl | (exfalso; omega)

theorem decodeRune_four {b0 b1 b2 b3 : Nat} (h0 : 0xF0 ≤ b0) (h0' : b0 ≤ 0xF4)
    (ha : acceptLo b0 ≤ b1) (hb : b1 ≤ acceptHi b0)
    (hc : 0x80 ≤ b2) (hd : b2 ≤ 0xBF) (he : 0x80 ≤ b3) (hf : b3 ≤ 0xBF)
    (rest : List Nat) :
    decodeRune (b0 :: b1 :: b2 :: b3 :: rest) =
      ((b0 % 0x8) * 0x40000 + (b1 % 0x40) * 0x1000 +
       (b2 % 0x40) * 0x40 + b3 % 0x40, 4) := by
  have hsz : runeLenX b0 = 4 := runeLenX_eq_four.mpr (by omega)
  simp only [decodeRune, hsz, List.length_cons, FirstInvalid]
  split_ifs <;> first | (exfalso; omega) | rfl

theorem decodeRune_firstInvalid {b0 : Nat} (hA : ¬ b0 < 0x80)
    (hFI : FirstInvalid b0) (rest : List Nat) :
    decodeRune (b0 :: rest) = (RuneError, 1) := by
  simp only [decodeRune]
  rw [if_neg hA, if_pos hFI]

theorem decodeRune_short {b0 : Nat} {rest : List Nat} (hA : ¬ b0 < 0x80)
    (hFI : ¬ FirstInvalid b0) (hL : (b0 :: rest).length < runeLenX b0) :
    decodeRune (b0 :: rest) = (RuneError, 1) := by
  simp only [decodeRune]
  rw [if_neg hA, if_neg hFI, if_pos hL]

theorem decodeRune_fail_accept {b0 b1 : Nat} {rest : List Nat}
    (hA : ¬ b0 < 0x80) (hFI : ¬ FirstInvalid b0)
    (hL : ¬ (b0 :: b1 :: rest).length < runeLenX b0)
    (hacc : b1 < acceptLo b0 ∨ acceptHi b0 < b1) :
    decodeRune (b0 :: b1 :: rest) = (RuneError, 1) := by
  simp only [decodeRune]
  rw [if_neg hA, if_neg hFI, if_neg hL, if_pos hacc]

theorem decodeRune_fail_b2 {b0 b1 b2 : Nat} {rest : List Nat}
    (hA : ¬ b0 < 0x80) (hFI : ¬ FirstInvalid b0)
    (hL : ¬ (b0 :: b1 :: b2 :: rest).length < runeLenX b0)
    (hacc : ¬ (b1 < acceptLo b0 ∨ acceptHi b0 < b1))
    (hs2 : runeLenX b0 ≠ 2) (hc : b2 < 0x80 ∨ 0xBF < b2) :
    decodeRune (b0 :: b1 :: b2 :: rest) = (RuneError, 1) := by
  simp only [decodeRune]
  rw [if_neg hA, if_neg hFI, if_neg hL, if_neg hacc, if_neg hs2, if_pos hc]

theorem decodeRune_fail_b3 {b0 b1 b2 b3 : Nat} {rest : List Nat}
    (hA : ¬ b0 < 0x80) (hFI : ¬ FirstInvalid b0)
    (hL : ¬ (b0 :: b1 :: b2 :: b3 :: rest).length < runeLenX b0)
    (hacc : ¬ (b1 < acceptLo b0 ∨ acceptHi b0 < b1))
    (hs2 : runeLenX b0 ≠ 2) (hc2 : ¬ (b2 < 0x80 ∨ 0xBF < b2))
    (hs3 : runeLenX b0 ≠ 3) (hc3 : b3 < 0x80 ∨ 0xBF < b3) :
    decodeRune (b0 :: b1 :: b2 :: b3 :: rest) = (RuneError, 1) := by
  simp only [decodeRune]
  rw [if_neg hA, if_neg hFI, if_neg hL, if_neg hacc, if_neg hs2, if_neg hc2,
    if_neg hs3, if_pos hc3]

/-- A valid encoding decodes the same way with anything appended, and
its size is its length. -/
theorem decodeRune_good {c : List Nat} (h : goodEncB c = true) (rest : List Nat) :
    decodeRune (c ++ rest) = ((decodeRune c).1, c.length) := by
  rcases goodEnc_shape h with ⟨b0, rfl, h0⟩ | ⟨b0, b1, rfl, h0, h1, ha, hb⟩ |
    ⟨b0, b1, b2, rfl, h0, h1, ha, hb, hc, hd⟩ |
    ⟨b0, b1, b2, b3, rfl, h0, h1, ha, hb, hc, hd, he, hf⟩
  · simp [decodeRune_ascii h0]
  · simp [decodeRune_two h0 h1 ha hb]
  · simp [decodeRune_three h0 h1 ha hb hc hd]
  · simp [decodeRune_four h0 h1 ha hb hc hd he hf]

/-- A valid encoding other than that of U+FFFD decodes to a value
different from `RuneError`. -/
theorem decodeRune_good_ne_err {c : List Nat} (h : goodEncB c = true)
    (hne : c ≠ invMarker) : (decodeRune c).1 ≠ RuneError := by
  rcases goodEnc_shape h with ⟨b0, rfl, h0⟩ | ⟨b0, b1, rfl, h0, h1, ha, hb⟩ |
    ⟨b0, b1, b2, rfl, h0, h1, ha, hb, hc, hd⟩ |
    ⟨b0, b1, b2, b3, rfl, h0, h1, ha, hb, hc, hd, he, hf⟩
  · simp only [decodeRune_ascii h0, RuneError]; omega
  · simp only [decodeRune_two h0 h1 ha hb, RuneError]; omega
  · obtain ⟨ha', hb'⟩ := accept_range ha hb
    simp only [invMarker, ne_eq, List.cons.injEq, and_true] at hne
    simp only [decodeRune_three h0 h1 ha hb hc hd, RuneError]
    omega
  · simp only [decodeRune_four h0 h1 ha hb hc hd he hf, RuneError]
    by_cases hF0 : b0 = 0xF0
    · subst hF0
      have ha' : 0x90 ≤ b1 := by simpa [acceptLo] using ha
      have hb' : b1 ≤ 0xBF := by simpa [acceptHi] using hb
      omega
    · omega

/-- When `DecodeRune` succeeds, the consumed bytes form a valid
encoding. -/
theorem decodeRune_valid_shape {p : List Nat}
    (h : (decodeRune p).1 ≠ RuneError) :
    goodEncB (p.take (decodeRune p).2) = true ∧
    1 ≤ (decodeRune p).2 ∧ (decodeRune p).2 ≤ p.length := by
  match p with
  | [] => simp [decodeRune, RuneError] at h
  | p0 :: rest =>
    by_cases hA : p0 < 0x80
    · simp [decodeRune_ascii hA, goodEncB, hA]
    · by_cases hFI : FirstInvalid p0
      · rw [decodeRune_firstInvalid hA hFI] at h; simp at h
      · by_cases hL : (p0 :: rest).length < runeLenX p0
        · rw [decodeRune_short hA hFI hL] at h; simp at h
        · obtain ⟨hs2, hs4⟩ := runeLenX_range hA hFI
          match rest with
          | [] => simp at hL; omega
          | b1 :: rest2 =>
            by_cases hacc : b1 < acceptLo p0 ∨ acceptHi p0 < b1
            · rw [decodeRune_fail_accept hA hFI hL hacc] at h; simp at h
            · by_cases h2 : runeLenX p0 = 2
              · obtain ⟨hc2, hc2'⟩ := runeLenX_eq_two.mp h2
                rw [decodeRune_two hc2 (by omega) (by omega) (by omega)] at h ⊢
                refine ⟨?_, by simp, by simp⟩
                simp only [List.take_succ_cons, List.take_zero, goodEncB,
                  Bool.and_eq_true, decide_eq_true_eq]
                exact ⟨⟨by omega, by omega⟩, by omega, by omega⟩
              · match rest2 with
                | [] => simp at hL; omega
                | b2 :: rest3 =>
                  by_cases hc2 : b2 < 0x80 ∨ 0xBF < b2
                  · rw [decodeRune_fail_b2 hA hFI hL hacc h2 hc2] at h
                    simp at h
                  · by_cases h3 : runeLenX p0 = 3
                    · obtain ⟨hr3, hr3'⟩ := runeLenX_eq_three.mp h3
                      rw [decodeRune_three hr3 (by omega) (by omega) (by omega)
                        (by omega) (by omega)] at h ⊢
                      refine ⟨?_, by simp, by simp⟩
                      simp only [List.take_succ_cons, List.take_zero, goodEncB,
                        Bool.and_eq_true, decide_eq_true_eq]
                      exact ⟨⟨⟨by omega, by omega⟩, by omega, by omega⟩,
                        by omega, by omega⟩
                    · have h4 : runeLenX p0 = 4 := by omega
                      obtain ⟨hr4, hr4'⟩ := runeLenX_eq_four.mp h4
                      match rest3 with
                      | [] => simp at hL; omega
                      | b3 :: rest4 =>
                        by_cases hc3 : b3 < 0x80 ∨ 0xBF < b3
                        · rw [decodeRune_fail_b3 hA hFI hL hacc h2 hc2 h3
                            hc3] at h
                          simp at h
                        · rw [decodeRune_four hr4 (by omega) (by omega)
                            (by omega) (by omega) (by omega) (by omega)
                            (by omega)] at h ⊢
                          refine ⟨?_, by simp, by simp⟩
                          simp only [List.take_succ_cons, List.take_zero,
                            goodEncB, Bool.and_eq_true, decide_eq_true_eq]
                          exact ⟨⟨⟨⟨by omega, by omega⟩, by omega, by omega⟩,
                            by omega, by omega⟩, by omega, by omega⟩

theorem getD_take {l : List Nat} {j i : Nat} (h : i < j) :
    (l.take j).getD i 0 = l.getD i 0 := by
  simp [List.getD, List.getElem?_take, h]

theorem runeStart_lead {b : Nat} (h : 0xC0 ≤ b) : runeStart b = true := by
  simp [runeStart]; omega

theorem runeStart_cont {b : Nat} (h1 : 0x80 ≤ b) (h2 : b ≤ 0xBF) :
    runeStart b = false := by
  simp [runeStart]; omega

theorem findStart_hit {p : List Nat} {lim cnt i : Nat}
    (h : runeStart (p.getD i 0) = true) (hc : 1 ≤ cnt) :
    findStart p lim cnt i = i := by
  match cnt with
  | 0 => omega
  | cnt + 1 =>
    have he : findStart p lim (cnt + 1) i =
        if runeStart (p.getD i 0) = true then i
        else findStart p lim cnt (i - 1) := rfl
    rw [he, if_pos h]

theorem findStart_miss {p : List Nat} {lim cnt i : Nat}
    (h : runeStart (p.getD i 0) = false) :
    findStart p lim (cnt + 1) i = findStart p lim cnt (i - 1) := by
  have he : findStart p lim (cnt + 1) i =
      if runeStart (p.getD i 0) = true then i
      else findStart p lim cnt (i - 1) := rfl
  rw [he, if_neg (by rw [h]; simp)]

/-- Scanning backwards over `k` non-start bytes above a start byte at
position `st` finds `st`. -/
theorem findStart_down {p : List Nat} {lim st : Nat}
    (hlead : runeStart (p.getD st 0) = true) :
    ∀ k cnt, (∀ j, 1 ≤ j → j ≤ k → runeStart (p.getD (st + j) 0) = false) →
      k + 1 ≤ cnt → findStart p lim cnt (st + k) = st := by
  intro k
  induction k with
  | zero => intro cnt _ hc; simpa using findStart_hit hlead (by omega)
  | succ k ih =>
    intro cnt hmiss hc
    obtain ⟨cnt', rfl⟩ : ∃ c', cnt = c' + 1 := ⟨cnt - 1, by omega⟩
    rw [findStart_miss (hmiss (k + 1) (by omega) le_rfl)]
    have hi : st + (k + 1) - 1 = st + k := by omega
    rw [hi]
    exact ih cnt' (fun j hj1 hj2 => hmiss j hj1 (by omega)) (by omega)

theorem goodEnc_cont {c : List Nat} (h : goodEncB c = true) {i : Nat}
    (h1 : 1 ≤ i) (h2 : i < c.length) :
    0x80 ≤ c.getD i 0 ∧ c.getD i 0 ≤ 0xBF := by
  rcases goodEnc_shape h with ⟨b0, rfl, h0⟩ | ⟨b0, b1, rfl, h0, hh1, ha, hb⟩ |
    ⟨b0, b1, b2, rfl, h0, hh1, ha, hb, hc, hd⟩ |
    ⟨b0, b1, b2, b3, rfl, h0, hh1, ha, hb, hc, hd, he, hf⟩
  · simp at h2; omega
  · simp at h2
    interval_cases i
    · simpa using accept_range ha hb
  · simp at h2
    interval_cases i
    · simpa using accept_range ha hb
    · simp; omega
  · simp at h2
    interval_cases i
    · simpa using accept_range ha hb
    · simp; omega
    · simp; omega

/-! ## Behaviour of `DecodeLastRune` on aligned and partial tails -/

/-- `DecodeLastRune` on text ending with a complete valid encoding
finds exactly that encoding, whatever precedes it. -/
theorem decodeLastRune_append_good {V c : List Nat} (h : goodEncB c = true) :
    decodeLastRune (V ++ c) = ((decodeRune c).1, c.length) := by
  obtain ⟨hl1, hl4⟩ := goodEnc_len h
  have hget : ∀ j, (V ++ c).getD (V.length + j) 0 = c.getD j 0 := by
    intro j
    rw [List.getD_append_right V c 0 _ (by omega)]
    congr 1
    omega
  have hlen : (V ++ c).length = V.length + c.length := by simp
  have hdec : decodeRune c = ((decodeRune c).1, c.length) := by
    simpa using decodeRune_good h []
  by_cases hA : c.getD (c.length - 1) 0 < 0x80
  · -- the last byte is ASCII, so c is a single ASCII byte: fast path
    obtain ⟨b0, rfl, hb0⟩ : ∃ b0, c = [b0] ∧ b0 < 0x80 := by
      rcases goodEnc_shape h with ⟨b0, rfl, h0⟩ | ⟨b0, b1, rfl, h0, h1, ha, hb⟩ |
        ⟨b0, b1, b2, rfl, h0, h1, ha, hb, hc, hd⟩ |
        ⟨b0, b1, b2, b3, rfl, h0, h1, ha, hb, hc, hd, he, hf⟩
      · exact ⟨b0, rfl, h0⟩
      · obtain ⟨ha', hb'⟩ := accept_range ha hb
        simp at hA; omega
      · simp at hA; omega
      · simp at hA; omega
    simp only [decodeLastRune]
    rw [if_neg (by rw [hlen]; simp)]
    have hi : (V ++ [b0]).length - 1 = V.length + 0 := by rw [hlen]; simp
    rw [hi, hget 0]
    simp only [List.getD_cons_zero]
    rw [if_pos hb0, decodeRune_ascii hb0 []]
    simp
  · -- multi-byte: the backward scan stops at the lead byte of c
    have hc2 : 2 ≤ c.length := by
      rcases goodEnc_shape h with ⟨b0, rfl, h0⟩ | ⟨b0, b1, rfl, _⟩ |
        ⟨b0, b1, b2, rfl, _⟩ | ⟨b0, b1, b2, b3, rfl, _⟩
      · simp at hA; omega
      · simp
      · simp
      · simp
    obtain ⟨hlead, hlead'⟩ := goodEnc_head_multi h hc2
    simp only [decodeLastRune]
    rw [if_neg (by rw [hlen]; omega)]
    have hi : (V ++ c).length - 1 = V.length + (c.length - 1) := by
      rw [hlen]; omega
    rw [hi, hget (c.length - 1)]
    rw [if_neg hA]
    have hst : findStart (V ++ c) ((V ++ c).length - UTFMax)
        (V.length + (c.length - 1) - ((V ++ c).length - UTFMax))
        (V.length + (c.length - 1) - 1) = V.length := by
      have he : V.length + (c.length - 1) - 1 = V.length + (c.length - 2) := by
        omega
      rw [he]
      have hg0 : (V ++ c).getD V.length 0 = c.getD 0 0 := by
        simpa using hget 0
      refine findStart_down (by rw [hg0]; exact runeStart_lead (by omega))
        (c.length - 2) _ ?_ ?_
      · intro j hj1 hj2
        rw [hget j]
        have hco := goodEnc_cont h hj1 (by omega)
        exact runeStart_cont hco.1 hco.2
      · rw [hlen]
        unfold UTFMax
        omega
    rw [hst, List.drop_left, hdec]
    simp [hlen]

/-- If `DecodeLastRune` reports a valid rune, the input ends with a
complete valid encoding. -/
theorem decodeLastRune_valid_suffix {q : List Nat}
    (h : (decodeLastRune q).1 ≠ RuneError) :
    ∃ V c, q = V ++ c ∧ goodEncB c = true := by
  by_cases h0 : q.length = 0
  · rw [decodeLastRune, if_pos h0] at h
    simp at h
  · have hkey : ∀ st : Nat,
        ((if st + (decodeRune (q.drop st)).2 ≠ q.length then
            ((RuneError : Nat), (1 : Nat))
          else decodeRune (q.drop st)).1 ≠ RuneError) →
        ∃ V c, q = V ++ c ∧ goodEncB c = true := by
      intro st hst
      by_cases hcond : st + (decodeRune (q.drop st)).2 ≠ q.length
      · rw [if_pos hcond] at hst; simp at hst
      · rw [if_neg hcond] at hst
        push_neg at hcond
        obtain ⟨hgood, hge1, hle⟩ := decodeRune_valid_shape hst
        have hdlen : (q.drop st).length = q.length - st := by simp
        have htk : (q.drop st).take (decodeRune (q.drop st)).2 = q.drop st := by
          apply List.take_of_length_le
          omega
        refine ⟨q.take st, q.drop st, by simp, ?_⟩
        rw [htk] at hgood
        exact hgood
    rw [decodeLastRune, if_neg h0] at h
    by_cases hfast : q.getD (q.length - 1) 0 < 0x80
    · rw [if_pos hfast] at h
      obtain ⟨b, hb⟩ : ∃ b, q.getD (q.length - 1) 0 = b := ⟨_, rfl⟩
      refine ⟨q.dropLast, [b], ?_, by simp [goodEncB]; omega⟩
      have hq : q ≠ [] := by simpa [← List.length_eq_zero] using h0
      conv_lhs => rw [← List.dropLast_append_getLast hq]
      congr 1
      rw [List.getLast_eq_getElem]
      rw [List.getD_eq_getElem _ _ (by omega)] at hb
      simp [hb]
    · rw [if_neg hfast] at h
      exact hkey _ h

/-- No list ending in a proper non-empty prefix of a valid multi-byte
encoding ends in any complete valid encoding. -/
theorem no_good_suffix {W c' : List Nat} {j : Nat} (hg : goodEncB c' = true)
    (hj1 : 1 ≤ j) (hj2 : j < c'.length) {V c : List Nat}
    (heq : W ++ c'.take j = V ++ c) (hc : goodEncB c = true) : False := by
  obtain ⟨hL1, hL4⟩ := goodEnc_len hc
  obtain ⟨hL1', hL4'⟩ := goodEnc_len hg
  have hlen : W.length + j = V.length + c.length := by
    have := congrArg List.length heq
    simp at this
    omega
  have hgetD : ∀ i, (W ++ c'.take j).getD i 0 = (V ++ c).getD i 0 := by
    intro i; rw [heq]
  have hcget : ∀ i, (V ++ c).getD (V.length + i) 0 = c.getD i 0 := by
    intro i
    rw [List.getD_append_right V c 0 _ (by omega)]
    congr 1
    omega
  rcases Nat.lt_trichotomy c.length j with hlt | heqq | hgt
  · -- c lies inside the partial tail: its head is a continuation byte
    have h1 : (W ++ c'.take j).getD (W.length + (j - c.length)) 0 =
        c'.getD (j - c.length) 0 := by
      rw [List.getD_append_right W _ 0 _ (by omega)]
      rw [show W.length + (j - c.length) - W.length = j - c.length by omega]
      exact getD_take (by omega)
    have h2 : (V ++ c).getD (W.length + (j - c.length)) 0 = c.getD 0 0 := by
      rw [show W.length + (j - c.length) = V.length + 0 by omega]
      exact hcget 0
    have hcont := goodEnc_cont hg (i := j - c.length) (by omega) (by omega)
    have hhead := goodEnc_head hc
    rw [hgetD, h2] at h1
    omega
  · -- c = the partial tail itself: its recorded length is wrong
    have hWV : W.length = V.length := by omega
    have hsame : ∀ i, i < c.length → c.getD i 0 = c'.getD i 0 := by
      intro i hi
      have := hgetD (W.length + i)
      rw [List.getD_append_right W _ 0 _ (by omega),
        show W.length + i - W.length = i by omega,
        getD_take (by omega), hWV] at this
      rw [hcget i] at this
      omega
    have e1 := goodEnc_runeLen hc
    have e2 := goodEnc_runeLen hg
    rw [hsame 0 (by omega)] at e1
    omega
  · -- c covers the whole tail: the tail's lead byte would have to be a
    -- continuation byte of c
    have h1 : (W ++ c'.take j).getD (W.length + 0) 0 = c'.getD 0 0 := by
      rw [List.getD_append_right W _ 0 _ (by omega)]
      rw [show W.length + 0 - W.length = 0 by omega]
      exact getD_take (by omega)
    have h2 : (V ++ c).getD (W.length + 0) 0 = c.getD (c.length - j) 0 := by
      rw [show W.length + 0 = V.length + (c.length - j) by omega]
      exact hcget _
    have hcont := goodEnc_cont hc (i := c.length - j) (by omega) (by omega)
    have hlead := goodEnc_head_multi hg (by omega)
    rw [hgetD, h2] at h1
    omega

/-- `DecodeLastRune` reports `RuneError` on anything ending in a
proper non-empty prefix of a valid multi-byte encoding. -/
theorem decodeLastRune_partial {W c' : List Nat} {j : Nat}
    (hg : goodEncB c' = true) (hj1 : 1 ≤ j) (hj2 : j < c'.length) :
    (decodeLastRune (W ++ c'.take j)).1 = RuneError := by
  by_contra h
  obtain ⟨V, c, heq, hc⟩ := decodeLastRune_valid_suffix h
  exact no_good_suffix hg hj1 hj2 heq hc

/-- `DecodeLastRune` reports a valid rune on any non-empty
concatenation of clean encodings. -/
theorem decodeLastRune_flatten {cs : List (List Nat)}
    (hcs : ∀ c ∈ cs, cleanEncB c = true) (hne : cs.flatten ≠ []) :
    (decodeLastRune cs.flatten).1 ≠ RuneError := by
  have hcs' : cs ≠ [] := by rintro rfl; simp at hne
  rcases List.eq_nil_or_concat cs with rfl | ⟨cs', c, rfl⟩
  · simp at hne
  · have hc := hcs c (by simp)
    simp only [cleanEncB, Bool.and_eq_true, decide_eq_true_eq] at hc
    rw [List.concat_eq_append, List.flatten_append, List.flatten_cons,
      List.flatten_nil, List.append_nil, decodeLastRune_append_good hc.1]
    exact decodeRune_good_ne_err hc.1 hc.2

/-! ## Behaviour of `FullRune` -/

theorem runeLenX_le_four (b : Nat) : runeLenX b ≤ 4 := by
  unfold runeLenX; split_ifs <;> omega

/-- Any 4 bytes are "full" for `utf8.FullRune` (a decode never needs
more than `UTFMax` bytes). -/
theorem fullRune_len4 {p : List Nat} (h : p.length = 4) : fullRune p = true := by
  match p with
  | b0 :: rest =>
    simp only [fullRune]
    rw [if_pos (by rw [h]; exact runeLenX_le_four b0)]

/-- A whole valid encoding is full. -/
theorem fullRune_full {c : List Nat} (h : goodEncB c = true) :
    fullRune c = true := by
  obtain ⟨h1, _⟩ := goodEnc_len h
  have hsz := goodEnc_runeLen h
  match c, h1 with
  | b0 :: rest, _ =>
    simp only [fullRune]
    rw [if_pos (by simp only [List.getD_cons_zero] at hsz; omega)]

/-- A proper non-empty prefix of a valid encoding is not yet full. -/
theorem fullRune_take_lt {c : List Nat} (h : goodEncB c = true) (k : Nat)
    (hk1 : 1 ≤ k) (hk2 : k < c.length) : fullRune (c.take k) = false := by
  have hsz := goodEnc_runeLen h
  rcases goodEnc_shape h with ⟨b0, rfl, h0⟩ | ⟨b0, b1, rfl, h0, h1, ha, hb⟩ |
    ⟨b0, b1, b2, rfl, h0, h1, ha, hb, hc, hd⟩ |
    ⟨b0, b1, b2, b3, rfl, h0, h1, ha, hb, hc, hd, he, hf⟩
  · simp at hk2; omega
  · simp only [List.length_cons, List.length_nil] at hk2
    have hk : k = 1 := by omega
    subst hk
    simp only [List.take_succ_cons, List.take_zero]
    simp only [fullRune]
    rw [if_neg (by
      simp only [List.getD_cons_zero, List.length_cons, List.length_nil] at hsz
      simp; omega)]
  · simp only [List.length_cons, List.length_nil] at hk2
    simp only [List.getD_cons_zero, List.length_cons, List.length_nil] at hsz
    rcases (show k = 1 ∨ k = 2 by omega) with rfl | rfl
    · simp only [List.take_succ_cons, List.take_zero]
      simp only [fullRune]
      rw [if_neg (by simp; omega)]
    · simp only [List.take_succ_cons, List.take_zero]
      simp only [fullRune]
      rw [if_neg (by simp; omega), if_neg (by omega)]
  · simp only [List.length_cons, List.length_nil] at hk2
    simp only [List.getD_cons_zero, List.length_cons, List.length_nil] at hsz
    rcases (show k = 1 ∨ k = 2 ∨ k = 3 by omega) with rfl | rfl | rfl
    · simp only [List.take_succ_cons, List.take_zero]
      simp only [fullRune]
      rw [if_neg (by simp; omega)]
    · simp only [List.take_succ_cons, List.take_zero]
      simp only [fullRune]
      rw [if_neg (by simp; omega), if_neg (by omega)]
    · simp only [List.take_succ_cons, List.take_zero]
      simp only [fullRune]
      rw [if_neg (by simp; omega), if_neg (by omega), if_neg (by omega)]

/-! ## List helpers -/

theorem take_set_succ {l : List Nat} {i b : Nat} (h : i < l.length) :
    (l.set i b).take (i + 1) = l.take i ++ [b] := by
  induction l generalizing i with
  | nil => simp at h
  | cons x xs ih =>
    match i with
    | 0 => simp
    | i + 1 =>
      simp only [List.set_cons_succ, List.take_succ_cons, List.cons_append]
      congr 1
      exact ih (by simpa using h)

/-! ## The general behaviour of `addLeftOver`

On any well-formed state the loop consumes bytes one at a time; the
capacity-overflow branch that would emit `u.inv` is unreachable, since
4 accumulated bytes always satisfy `utf8.FullRune`.  Consequently every
call preserves content exactly and leaves at most 3 leftover bytes. -/

theorem addLoop_spec : ∀ (rem : List Nat) (lo : List Nat) (idx i : Nat),
    lo.length = 4 → 1 ≤ idx → idx ≤ 3 →
    ∃ lo' idx' n ems,
      addLoop lo idx rem i = some (lo', idx', n, ems) ∧
      lo'.length = 4 ∧ idx' ≤ 3 ∧ i ≤ n ∧ n ≤ i + rem.length ∧
      ems.flatten ++ lo'.take idx' = lo.take idx ++ rem.take (n - i) ∧
      (ems = [] → idx' = idx + rem.length ∧ n = i + rem.length) ∧
      (ems ≠ [] → idx' = 0) := by
  intro rem
  induction rem with
  | nil =>
    intro lo idx i h4 hi1 hi3
    refine ⟨lo, idx, i, [], ?_, h4, hi3, le_rfl, by simp, by simp, ?_, by simp⟩
    · unfold addLoop
      rw [if_neg (by unfold UTFMax; omega)]
    · intro
      simp
  | cons b rest ih =>
    intro lo idx i h4 hi1 hi3
    have hset : setB lo idx b = some (lo.set idx b) := by
      unfold setB
      rw [if_pos (by omega)]
    by_cases hfull : fullRune ((lo.set idx b).take (idx + 1)) = true
    · refine ⟨lo.set idx b, 0, i + 1, [(lo.set idx b).take (idx + 1)], ?_,
        by simpa using h4, by omega, by omega, by simp, ?_, by simp, by simp⟩
      · unfold addLoop
        rw [if_pos (by unfold UTFMax; omega), hset]
        simp only [hfull, if_true]
      · simp only [List.flatten_cons, List.flatten_nil, List.append_nil,
          List.take_zero, List.append_nil]
        rw [take_set_succ (by omega)]
        have : (i + 1 - i) = 1 := by omega
        rw [this]
        simp
    · have hidx2 : idx ≤ 2 := by
        by_contra hgt
        have h3 : idx = 3 := by omega
        subst h3
        have : ((lo.set 3 b).take 4).length = 4 := by
          simp [h4]
        exact hfull (fullRune_len4 this)
      obtain ⟨lo', idx', n, ems, heq, hl4, hle3, hni, hnn, hflat, hemn, hems⟩ :=
        ih (lo.set idx b) (idx + 1) (i + 1) (by simpa using h4) (by omega)
          (by omega)
      refine ⟨lo', idx', n, ems, ?_, hl4, hle3, by omega, by simp; omega, ?_,
        ?_, hems⟩
      · unfold addLoop
        rw [if_pos (by unfold UTFMax; omega), hset]
        simp only [Bool.not_eq_true] at hfull
        simp only [hfull, Bool.false_eq_true, if_false]
        exact heq
      · rw [hflat, take_set_succ (by omega)]
        have hsplit : (b :: rest).take (n - i) = b :: rest.take (n - (i + 1)) := by
          have : n - i = (n - (i + 1)) + 1 := by omega
          rw [this]
          simp
        rw [hsplit]
        simp
      · intro hemsnil
        obtain ⟨he1, he2⟩ := hemn hemsnil
        constructor
        · simp; omega
        · simp; omega

/-- General behaviour of `addLeftOver`: never panics on a well-formed
state, consumes a prefix of the chunk, emits at most one chunk holding
exactly the held bytes plus the consumed bytes (never the `u.inv`
replacement marker in place of them), and clears the index when it
emits. -/
theorem addLeftOver_spec {u : Utf8St} (h4 : u.lo.length = 4)
    (h3 : u.idx ≤ 3) (bs : List Nat) :
    ∃ u1 n ems, addLeftOver u bs = some (u1, n, ems) ∧
      u1.lo.length = 4 ∧ u1.idx ≤ 3 ∧ n ≤ bs.length ∧
      ems.flatten ++ heldOf u1 = heldOf u ++ bs.take n ∧
      (u.idx = 0 → u1 = u ∧ n = 0 ∧ ems = []) ∧
      (u.idx ≠ 0 → (ems = [] → n = bs.length) ∧ (ems ≠ [] → u1.idx = 0)) := by
  by_cases h0 : u.idx = 0
  · refine ⟨u, 0, [], ?_, h4, h3, by omega, ?_, fun _ => ⟨rfl, rfl, rfl⟩,
      fun hn => absurd h0 hn⟩
    · unfold addLeftOver
      rw [if_pos h0]
    · simp
  · obtain ⟨lo', idx', n, ems, heq, hl4, hle3, _, hnn, hflat, hemn, hems⟩ :=
      addLoop_spec bs u.lo u.idx 0 h4 (by omega) h3
    refine ⟨⟨lo', idx'⟩, n, ems, ?_, hl4, hle3, by omega, ?_, fun h => absurd h h0,
      fun _ => ⟨fun he => by have := (hemn he).2; omega, hems⟩⟩
    · unfold addLeftOver
      rw [if_neg h0, heq]
    · simpa [heldOf] using hflat

theorem storeRange_spec : ∀ (bs lo : List Nat) (idx : Nat),
    lo.length = 4 → idx + bs.length ≤ 4 →
    ∃ lo', storeRange lo idx bs = some (lo', idx + bs.length) ∧
      lo'.length = 4 ∧ lo'.take (idx + bs.length) = lo.take idx ++ bs := by
  intro bs
  induction bs with
  | nil => intro lo idx h4 _; exact ⟨lo, rfl, h4, by simp⟩
  | cons b rest ih =>
    intro lo idx h4 hle
    simp only [List.length_cons] at hle
    obtain ⟨lo', heq, hl4, htk⟩ :=
      ih (lo.set idx b) (idx + 1) (by simpa using h4) (by omega)
    refine ⟨lo', ?_, hl4, ?_⟩
    · have hset : setB lo idx b = some (lo.set idx b) := by
        unfold setB; rw [if_pos (by omega)]
      have hlen2 : idx + (b :: rest).length = idx + 1 + rest.length := by
        simp; omega
      rw [hlen2]
      simp only [storeRange, hset]
      exact heq
    · rw [show idx + (b :: rest).length = idx + 1 + rest.length by simp; omega]
      rw [htk, take_set_succ (by omega)]
      simp

theorem scanBack_le : ∀ (cnt l l' : Nat) (bs : List Nat),
    scanBack bs cnt l = some l' → l' ≤ l ∧ l + 1 ≤ l' + cnt := by
  intro cnt
  induction cnt with
  | zero => intro l l' bs h; simp [scanBack] at h
  | succ cnt ih =>
    intro l l' bs h
    unfold scanBack at h
    split_ifs at h with hc
    · simp at h; omega
    · have := ih (l - 1) l' bs h
      -- the scan only continues while l > the stop bound, so l ≥ 1 here
      -- is not known; but Nat subtraction still gives the bound
      omega

theorem scanBack_hit {bs : List Nat} {l cnt : Nat}
    (h : (decodeLastRune (bs.take l)).1 ≠ RuneError) (hc : 1 ≤ cnt) :
    scanBack bs cnt l = some l := by
  match cnt with
  | 0 => omega
  | cnt + 1 =>
    unfold scanBack
    rw [if_pos h]

theorem scanBack_miss {bs : List Nat} {l cnt : Nat}
    (h : (decodeLastRune (bs.take l)).1 = RuneError) :
    scanBack bs (cnt + 1) l = scanBack bs cnt (l - 1) := by
  have he : scanBack bs (cnt + 1) l =
      if (decodeLastRune (bs.take l)).1 ≠ RuneError then some l
      else scanBack bs cnt (l - 1) := rfl
  rw [he, if_neg (by simp [h])]

theorem storeLeftOver_nil (u : Utf8St) : storeLeftOver u [] = some (u, 0) := by
  unfold storeLeftOver
  simp

/-- General behaviour of `storeLeftOver` from a drained state: never
panics, returns a split point within the chunk, and moves exactly the
bytes beyond it into the leftover buffer (at most 3 of them). -/
theorem storeLeftOver_spec {u : Utf8St} (h4 : u.lo.length = 4)
    (h0 : u.idx = 0) (bs : List Nat) :
    ∃ u2 l, storeLeftOver u bs = some (u2, l) ∧ l ≤ bs.length ∧
      u2.lo.length = 4 ∧ u2.idx ≤ 3 ∧ heldOf u2 = bs.drop l := by
  by_cases hs0 : bs.length = 0
  · obtain rfl : bs = [] := by simpa [List.length_eq_zero] using hs0
    exact ⟨u, 0, storeLeftOver_nil u, by simp, h4, by omega, by simp [heldOf, h0]⟩
  by_cases hvalid : (decodeLastRune bs).1 ≠ RuneError
  · refine ⟨u, bs.length, ?_, le_rfl, h4, by omega, by simp [heldOf, h0]⟩
    unfold storeLeftOver
    rw [if_neg hs0, if_pos hvalid]
  · push_neg at hvalid
    by_cases hs1 : bs.length - 1 = 0
    · -- single byte: grab it
      obtain ⟨b, rfl⟩ : ∃ b, bs = [b] := by
        match bs, (by omega : bs.length = 1) with
        | [b], _ => exact ⟨b, rfl⟩
      refine ⟨⟨u.lo.set u.idx b, u.idx + 1⟩, 0, ?_, by simp, by simpa using h4,
        by show u.idx + 1 ≤ 3; omega, ?_⟩
      · have hset : setB u.lo u.idx ([b].getD 0 0) = some (u.lo.set u.idx b) := by
          unfold setB; rw [if_pos (by omega)]; simp
        unfold storeLeftOver
        rw [if_neg hs0, if_neg (by simpa using hvalid), if_pos hs1]
        simp only [hset]
      · simp only [heldOf, List.drop_zero]
        rw [h0, take_set_succ (by omega)]
        simp
    · -- the backward scan
      have hstep : ∀ l', scanBack bs (bs.length - (bs.length - 3))
            (bs.length - 1) = some l' →
          ∃ u2, storeLeftOver u bs = some (u2, l') ∧ l' ≤ bs.length ∧
            u2.lo.length = 4 ∧ u2.idx ≤ 3 ∧ heldOf u2 = bs.drop l' := by
        intro l' hscan
        obtain ⟨hle, hge⟩ := scanBack_le _ _ _ _ hscan
        have hdlen : (bs.drop l').length = bs.length - l' := by simp
        obtain ⟨lo', heq, hl4, htk⟩ := storeRange_spec (bs.drop l') u.lo u.idx
          h4 (by rw [hdlen]; omega)
        refine ⟨⟨lo', u.idx + (bs.drop l').length⟩, ?_, by omega, hl4,
          by show u.idx + (bs.drop l').length ≤ 3; rw [hdlen]; omega, ?_⟩
        · unfold storeLeftOver
          rw [if_neg hs0, if_neg (by simpa using hvalid), if_neg hs1]
          simp only [hscan, heq]
        · simp only [heldOf]
          rw [htk, h0]
          simp
      rcases hScanRes : scanBack bs (bs.length - (bs.length - 3))
          (bs.length - 1) with _ | l'
      · -- no valid split found: fall back to l = s - 3
        have hdlen : (bs.drop (bs.length - 3)).length = min 3 bs.length := by
          simp; omega
        obtain ⟨lo', heq, hl4, htk⟩ := storeRange_spec (bs.drop (bs.length - 3))
          u.lo u.idx h4 (by rw [hdlen]; omega)
        refine ⟨⟨lo', u.idx + (bs.drop (bs.length - 3)).length⟩,
          bs.length - 3, ?_, by omega, hl4,
          by show u.idx + (bs.drop (bs.length - 3)).length ≤ 3;
             rw [hdlen]; omega, ?_⟩
        · unfold storeLeftOver
          rw [if_neg hs0, if_neg (by simpa using hvalid), if_neg hs1]
          simp only [hScanRes]
          rw [if_neg (by rw [h0]; unfold UTFMax; omega)]
          simp only [heq]
        · simp only [heldOf]
          rw [htk, h0]
          simp
      · obtain ⟨u2, hall⟩ := hstep l' hScanRes
        exact ⟨u2, l', hall⟩

/-- One `Conduct` loop iteration preserves content exactly on any
well-formed state, and never panics. -/
theorem conductChunk_spec {u : Utf8St} (h4 : u.lo.length = 4)
    (h3 : u.idx ≤ 3) (bs : List Nat) :
    ∃ u2 outs, conductChunk u bs = some (u2, outs) ∧
      u2.lo.length = 4 ∧ u2.idx ≤ 3 ∧
      outs.flatten ++ heldOf u2 = heldOf u ++ bs := by
  obtain ⟨u1, n, ems, haeq, h14, h13, hn, hflat, hz, hnz⟩ :=
    addLeftOver_spec h4 h3 bs
  by_cases h0 : u.idx = 0
  · obtain ⟨rfl, rfl, rfl⟩ := hz h0
    obtain ⟨u2, l, hseq, hl, h24, h23, hheld⟩ := storeLeftOver_spec h4 h0 bs
    refine ⟨u2, [] ++ (if (bs.take l).length > 0 then [bs.take l] else []),
      ?_, h24, h23, ?_⟩
    · unfold conductChunk
      simp only [haeq]
      rw [if_pos (by omega)]
      simp only [List.drop_zero, hseq]
      rw [if_pos (by omega)]
    · have hout : (if (bs.take l).length > 0 then [bs.take l] else []).flatten
          = bs.take l := by
        split_ifs <;> simp_all
      have hu : heldOf u1 = [] := by simp [heldOf, h0]
      rw [List.nil_append, hout, hheld, hu, List.nil_append]
      exact List.take_append_drop l bs
  · obtain ⟨hemnil, hemcons⟩ := hnz h0
    rcases hcase : ems with _ | ⟨e, ems'⟩
    · subst hcase
      have hn' : n = bs.length := hemnil rfl
      refine ⟨u1, [], ?_, h14, h13, ?_⟩
      · unfold conductChunk
        simp only [haeq]
        rw [if_pos (by omega)]
        rw [show bs.drop n = [] by rw [hn']; simp]
        simp only [storeLeftOver_nil]
        simp
      · simpa [hn'] using hflat
    · have h10 : u1.idx = 0 := hemcons (by rw [hcase]; simp)
      obtain ⟨u2, l, hseq, hl, h24, h23, hheld⟩ :=
        storeLeftOver_spec h14 h10 (bs.drop n)
      rw [← hcase] at *
      refine ⟨u2, ems ++ (if ((bs.drop n).take l).length > 0
        then [(bs.drop n).take l] else []), ?_, h24, h23, ?_⟩
      · unfold conductChunk
        simp only [haeq]
        rw [if_pos (by omega)]
        simp only [hseq]
        rw [if_pos (by omega)]
      · have hout : (if ((bs.drop n).take l).length > 0
            then [(bs.drop n).take l] else []).flatten = (bs.drop n).take l := by
          split_ifs <;> simp_all
        have hheld1 : heldOf u1 = [] := by simp [heldOf, h10]
        rw [hheld1, List.append_nil] at hflat
        rw [List.flatten_append, hout, hheld, List.append_assoc,
          List.take_append_drop, hflat, List.append_assoc,
          List.take_append_drop]

/-- `Conduct` over any stream of byte chunks: total, content-exact up
to the held leftover, and the leftover never exceeds 3 bytes. -/
theorem conductBytes_spec : ∀ (chunks : List (List Nat)) (u : Utf8St),
    u.lo.length = 4 → u.idx ≤ 3 →
    ∃ u2 outs, conductBytes u chunks = some (u2, outs) ∧
      u2.lo.length = 4 ∧ u2.idx ≤ 3 ∧
      outs.flatten ++ heldOf u2 = heldOf u ++ chunks.flatten := by
  intro chunks
  induction chunks with
  | nil => intro u h4 h3; exact ⟨u, [], rfl, h4, h3, by simp⟩
  | cons bs rest ih =>
    intro u h4 h3
    obtain ⟨u1, outs1, he1, h14, h13, hc1⟩ := conductChunk_spec h4 h3 bs
    obtain ⟨u2, outs2, he2, h24, h23, hc2⟩ := ih u1 h14 h13
    refine ⟨u2, outs1 ++ outs2, ?_, h24, h23, ?_⟩
    · unfold conductBytes
      simp only [he1, he2]
    · rw [List.flatten_append, List.flatten_cons, List.append_assoc, hc2,
        ← List.append_assoc, hc1, List.append_assoc]

/-! ## `storeLeftOver` on rune-aligned input -/

theorem scanBack_down {bs : List Nat} {h : Nat}
    (hhit : (decodeLastRune (bs.take h)).1 ≠ RuneError) :
    ∀ k cnt, (∀ l, h < l → l ≤ h + k → (decodeLastRune (bs.take l)).1 = RuneError) →
      k + 1 ≤ cnt → scanBack bs cnt (h + k) = some h := by
  intro k
  induction k with
  | zero => intro cnt _ hc; simpa using scanBack_hit hhit (by omega)
  | succ k ih =>
    intro cnt hmiss hc
    obtain ⟨cnt', rfl⟩ : ∃ c', cnt = c' + 1 := ⟨cnt - 1, by omega⟩
    rw [show h + (k + 1) = (h + (k + 1)) from rfl,
      scanBack_miss (hmiss (h + (k + 1)) (by omega) le_rfl)]
    have hi : h + (k + 1) - 1 = h + k := by omega
    rw [hi]
    exact ih cnt' (fun l hl1 hl2 => hmiss l hl1 (by omega)) (by omega)

theorem scanBack_all_miss {bs : List Nat} :
    ∀ (cnt l : Nat), (∀ l', l' ≤ l → (decodeLastRune (bs.take l')).1 = RuneError) →
      scanBack bs cnt l = none := by
  intro cnt
  induction cnt with
  | zero => intro l _; rfl
  | succ cnt ih =>
    intro l hmiss
    rw [scanBack_miss (hmiss l le_rfl)]
    exact ih (l - 1) (fun l' hl' => hmiss l' (by omega))

theorem heldOf_idx_zero {u : Utf8St} (h4 : u.lo.length = 4)
    (hh : heldOf u = []) : u.idx = 0 := by
  unfold heldOf at hh
  rcases List.take_eq_nil_iff.mp hh with h | h
  · exact h
  · rw [h] at h4; simp at h4

theorem heldOf_length {u : Utf8St} (h4 : u.lo.length = 4) (h3 : u.idx ≤ 3) :
    (heldOf u).length = u.idx := by
  unfold heldOf
  simp
  omega

/-- `storeLeftOver` on a drained state fed complete clean encodings
followed by a proper prefix of a clean encoding: it emits exactly the
complete part and holds exactly the prefix. -/
theorem storeLeftOver_aligned {u : Utf8St} (h4 : u.lo.length = 4)
    (h0 : u.idx = 0) {ws : List (List Nat)} {P : List Nat}
    (hws : ∀ w ∈ ws, cleanEncB w = true)
    (hP : P = [] ∨ ∃ c j, cleanEncB c = true ∧ 1 ≤ j ∧ j < c.length ∧
      P = c.take j) :
    ∃ u2, storeLeftOver u (ws.flatten ++ P) = some (u2, ws.flatten.length) ∧
      u2.lo.length = 4 ∧ u2.idx ≤ 3 ∧ heldOf u2 = P := by
  rcases hP with rfl | ⟨c, j, hc, hj1, hj2, rfl⟩
  · -- P = []: the input ends at a rune boundary (or is empty)
    by_cases hWnil : ws.flatten = []
    · refine ⟨u, ?_, h4, by omega, by simp [heldOf, h0]⟩
      rw [List.append_nil, hWnil, storeLeftOver_nil]
      rfl
    · have hvalid := decodeLastRune_flatten hws hWnil
      refine ⟨u, ?_, h4, by omega, by simp [heldOf, h0]⟩
      unfold storeLeftOver
      rw [List.append_nil]
      rw [if_neg (by rw [List.length_eq_zero]; exact hWnil), if_pos hvalid]
  · -- P is a proper non-empty prefix of a clean encoding
    have hcg : goodEncB c = true := by
      simp only [cleanEncB, Bool.and_eq_true, decide_eq_true_eq] at hc
      exact hc.1
    have hPlen : (c.take j).length = j := by simp; omega
    have hlen4 : c.length ≤ 4 := (goodEnc_len hcg).2
    have hsl : (ws.flatten ++ c.take j).length = ws.flatten.length + j := by
      simp; omega
    have htake : ∀ l, ws.flatten.length ≤ l → l ≤ ws.flatten.length + j →
        (ws.flatten ++ c.take j).take l =
          ws.flatten ++ c.take (l - ws.flatten.length) := by
      intro l hl hl2
      rw [List.take_append_eq_append_take, List.take_of_length_le hl]
      congr 1
      rw [List.take_take]
      congr 1
      exact Nat.min_eq_left (by omega)
    have hmiss : ∀ l, ws.flatten.length < l → l ≤ ws.flatten.length + j - 1 →
        (decodeLastRune ((ws.flatten ++ c.take j).take l)).1 = RuneError := by
      intro l hl1 hl2
      rw [htake l (by omega) (by omega)]
      exact decodeLastRune_partial hcg (by omega) (by omega)
    have hfirst : (decodeLastRune (ws.flatten ++ c.take j)).1 = RuneError :=
      decodeLastRune_partial hcg hj1 hj2
    have hdrop : (ws.flatten ++ c.take j).drop ws.flatten.length = c.take j := by
      rw [List.drop_append_eq_append_drop]
      simp
    by_cases hs1 : ws.flatten.length + j = 1
    · -- single byte: ws = [] (each clean encoding is non-empty) and j = 1
      have hWnil : ws.flatten = [] := by
        rcases Nat.eq_zero_or_pos ws.flatten.length with h | h
        · exact List.length_eq_zero.mp h
        · omega
      have hj : j = 1 := by omega
      subst hj
      obtain ⟨b0, hb0⟩ : ∃ b0, c.take 1 = [b0] := by
        match c, hj2 with
        | c0 :: _, _ => exact ⟨c0, by simp⟩
      refine ⟨⟨u.lo.set u.idx b0, u.idx + 1⟩, ?_, by simpa using h4,
        by show u.idx + 1 ≤ 3; omega, ?_⟩
      · have hbs : ws.flatten ++ c.take 1 = [b0] := by rw [hWnil, hb0]; rfl
        have hset : setB u.lo u.idx ([b0].getD 0 0) =
            some (u.lo.set u.idx b0) := by
          unfold setB; rw [if_pos (by omega)]; simp
        rw [hbs]
        unfold storeLeftOver
        rw [if_neg (by simp), if_neg (by rw [← hbs]; simpa using hfirst),
          if_pos (by simp)]
        simp only [hset]
        rw [hWnil]
        rfl
      · simp only [heldOf]
        rw [h0, take_set_succ (by omega), hb0]
        simp
    · -- length ≥ 2: the backward scan runs
      have hs2 : 2 ≤ ws.flatten.length + j := by omega
      by_cases hWnil : ws.flatten = []
      · -- no complete part: every scan probe misses, fall through
        have hWlen : ws.flatten.length = 0 := by rw [hWnil]; rfl
        have hallmiss : ∀ l', l' ≤ (ws.flatten ++ c.take j).length - 1 →
            (decodeLastRune ((ws.flatten ++ c.take j).take l')).1 =
              RuneError := by
          intro l' hl'
          rcases Nat.eq_zero_or_pos l' with rfl | hpos
          · simp [decodeLastRune, RuneError]
          · exact hmiss l' (by omega) (by rw [hsl] at hl'; omega)
        have hscan : scanBack (ws.flatten ++ c.take j)
            ((ws.flatten ++ c.take j).length -
              ((ws.flatten ++ c.take j).length - 3))
            ((ws.flatten ++ c.take j).length - 1) = none :=
          scanBack_all_miss _ _ hallmiss
        have hfb : (ws.flatten ++ c.take j).length - 3 = 0 := by
          rw [hsl]; omega
        obtain ⟨lo', heq, hl4, htk⟩ := storeRange_spec
          ((ws.flatten ++ c.take j).drop ((ws.flatten ++ c.take j).length - 3))
          u.lo u.idx h4
          (by rw [hfb]; simp only [List.drop_zero]; rw [hsl]; omega)
        have hile : u.idx + ((ws.flatten ++ c.take j).drop
            ((ws.flatten ++ c.take j).length - 3)).length ≤ 3 := by
          rw [hfb]
          simp only [List.drop_zero]
          rw [hsl]
          omega
        refine ⟨⟨lo', u.idx + ((ws.flatten ++ c.take j).drop
            ((ws.flatten ++ c.take j).length - 3)).length⟩, ?_, hl4, hile, ?_⟩
        · unfold storeLeftOver
          rw [if_neg (by rw [hsl]; omega), if_neg (by simpa using hfirst),
            if_neg (by rw [hsl]; omega)]
          simp only [hscan]
          rw [if_neg (by rw [h0]; unfold UTFMax; omega)]
          simp only [heq]
          simp only [Option.some.injEq, Prod.mk.injEq]
          exact ⟨trivial, by rw [hsl]; omega⟩
        · simp only [heldOf]
          rw [htk, h0]
          simp only [List.take_zero, List.nil_append]
          rw [hfb]
          simp only [List.drop_zero]
          rw [hWnil]
          rfl
      · -- the scan hits the last complete rune boundary
        have hWpos : 1 ≤ ws.flatten.length := by
          rcases Nat.eq_zero_or_pos ws.flatten.length with h | h
          · exact absurd (List.length_eq_zero.mp h) hWnil
          · exact h
        have hhit : (decodeLastRune ((ws.flatten ++ c.take j).take
            ws.flatten.length)).1 ≠ RuneError := by
          rw [List.take_append_eq_append_take, List.take_of_length_le le_rfl,
            Nat.sub_self, List.take_zero, List.append_nil]
          exact decodeLastRune_flatten hws hWnil
        have hscan : scanBack (ws.flatten ++ c.take j)
            ((ws.flatten ++ c.take j).length -
              ((ws.flatten ++ c.take j).length - 3))
            ((ws.flatten ++ c.take j).length - 1) =
            some ws.flatten.length := by
          rw [show (ws.flatten ++ c.take j).length - 1 =
            ws.flatten.length + (j - 1) by rw [hsl]; omega]
          refine scanBack_down hhit (j - 1) _ ?_ (by rw [hsl]; omega)
          intro l hl1 hl2
          exact hmiss l hl1 (by omega)
        obtain ⟨lo', heq, hl4, htk⟩ := storeRange_spec
          ((ws.flatten ++ c.take j).drop ws.flatten.length) u.lo u.idx h4
          (by rw [hdrop, hPlen]; omega)
        have hile : u.idx +
            ((ws.flatten ++ c.take j).drop ws.flatten.length).length ≤ 3 := by
          rw [hdrop, hPlen]
          omega
        refine ⟨⟨lo', u.idx +
          ((ws.flatten ++ c.take j).drop ws.flatten.length).length⟩, ?_, hl4,
          hile, ?_⟩
        · unfold storeLeftOver
          rw [if_neg (by rw [hsl]; omega), if_neg (by simpa using hfirst),
            if_neg (by rw [hsl]; omega)]
          simp only [hscan]
          simp only [heq]
        · simp only [heldOf]
          rw [htk, h0]
          simp only [List.take_zero, List.nil_append]
          exact hdrop

/-! ## `addLeftOver` on an aligned leftover -/

theorem drop_eq_getD_cons {c : List Nat} {j : Nat} (h : j < c.length) :
    c.drop j = c.getD j 0 :: c.drop (j + 1) := by
  rw [List.drop_eq_getElem_cons h]
  congr 1
  exact (List.getD_eq_getElem _ _ h).symm

theorem take_succ_getD {c : List Nat} {j : Nat} (h : j < c.length) :
    c.take (j + 1) = c.take j ++ [c.getD j 0] := by
  rw [List.take_succ]
  congr 1
  rw [List.getD_eq_getElem _ _ h]
  simp [List.getElem?_eq_getElem h]

/-- When the chunk completes the held encoding, the loop emits exactly
that encoding and stops right after it. -/
theorem addLoop_complete {c : List Nat} (hg : goodEncB c = true) :
    ∀ (k j i : Nat) (lo t : List Nat), lo.length = 4 → 1 ≤ j → j < c.length →
    k = c.length - j → lo.take j = c.take j →
    ∃ lo', addLoop lo j (c.drop j ++ t) i =
      some (lo', 0, i + (c.length - j), [c]) := by
  intro k
  induction k with
  | zero => intro j i lo t _ _ hjlt hk _; omega
  | succ k ih =>
    intro j i lo t h4 hj1 hjlt hk htk
    have hlen4 := (goodEnc_len hg).2
    have hdropc : c.drop j ++ t = c.getD j 0 :: (c.drop (j + 1) ++ t) := by
      rw [drop_eq_getD_cons hjlt]
      simp
    rw [hdropc]
    have hset : setB lo j (c.getD j 0) = some (lo.set j (c.getD j 0)) := by
      unfold setB
      rw [if_pos (by omega)]
    have htk' : (lo.set j (c.getD j 0)).take (j + 1) = c.take (j + 1) := by
      rw [take_set_succ (by omega), htk, ← take_succ_getD hjlt]
    by_cases hend : j + 1 = c.length
    · refine ⟨lo.set j (c.getD j 0), ?_⟩
      unfold addLoop
      rw [if_pos (by unfold UTFMax; omega)]
      simp only [hset]
      rw [if_pos (by
        rw [htk', hend, List.take_length]
        exact fullRune_full hg)]
      rw [htk', hend, List.take_length,
        show c.length - j = 1 by omega]
    · obtain ⟨lo', hrec⟩ := ih (j + 1) (i + 1) (lo.set j (c.getD j 0)) t
        (by simpa using h4) (by omega) (by omega) (by omega) htk'
      refine ⟨lo', ?_⟩
      unfold addLoop
      rw [if_pos (by unfold UTFMax; omega)]
      simp only [hset]
      rw [if_neg (by
        rw [htk']
        simp [fullRune_take_lt hg (j + 1) (by omega) (by omega)])]
      rw [hrec, show i + (c.length - j) = i + 1 + (c.length - (j + 1)) by
        omega]

/-- When the chunk ends before the held encoding completes, the loop
absorbs the whole chunk into the leftover. -/
theorem addLoop_partial {c : List Nat} (hg : goodEncB c = true) :
    ∀ (m j i : Nat) (lo : List Nat), lo.length = 4 → 1 ≤ j →
    j + m < c.length → lo.take j = c.take j →
    ∃ lo', addLoop lo j ((c.drop j).take m) i = some (lo', j + m, i + m, []) ∧
      lo'.length = 4 ∧ lo'.take (j + m) = c.take (j + m) := by
  have hlen4 := (goodEnc_len hg).2
  intro m
  induction m with
  | zero =>
    intro j i lo h4 hj1 hjm htk
    refine ⟨lo, ?_, h4, by simpa using htk⟩
    rw [show (c.drop j).take 0 = [] from rfl]
    unfold addLoop
    rw [if_neg (by unfold UTFMax; omega)]
    simp
  | succ m ih =>
    intro j i lo h4 hj1 hjm htk
    have hjlt : j < c.length := by omega
    have hdropc : (c.drop j).take (m + 1) =
        c.getD j 0 :: ((c.drop (j + 1)).take m) := by
      rw [drop_eq_getD_cons hjlt]
      simp
    rw [hdropc]
    have hset : setB lo j (c.getD j 0) = some (lo.set j (c.getD j 0)) := by
      unfold setB
      rw [if_pos (by omega)]
    have htk' : (lo.set j (c.getD j 0)).take (j + 1) = c.take (j + 1) := by
      rw [take_set_succ (by omega), htk, ← take_succ_getD hjlt]
    obtain ⟨lo', hrec, hl4, htk2⟩ := ih (j + 1) (i + 1) (lo.set j (c.getD j 0))
      (by simpa using h4) (by omega) (by omega) htk'
    refine ⟨lo', ?_, hl4,
      by rw [show j + (m + 1) = j + 1 + m by omega]; exact htk2⟩
    unfold addLoop
    rw [if_pos (by unfold UTFMax; omega)]
    simp only [hset]
    rw [if_neg (by
      rw [htk']
      simp [fullRune_take_lt hg (j + 1) (by omega) (by omega)])]
    rw [hrec, show j + (m + 1) = j + 1 + m by omega,
      show i + (m + 1) = i + 1 + m by omega]

/-! ## Decomposing a prefix of clean text -/

/-- Any split point in clean text decomposes the prefix as complete
encodings followed by a proper prefix of the next encoding; the
remainder stays aligned with that prefix as leftover. -/
theorem split_clean : ∀ (cs : List (List Nat)) (bs fut : List Nat),
    (∀ c ∈ cs, cleanEncB c = true) → bs ++ fut = cs.flatten →
    ∃ (ws : List (List Nat)) (P : List Nat),
      (∀ w ∈ ws, cleanEncB w = true) ∧ bs = ws.flatten ++ P ∧
      (P = [] ∨ ∃ c j, cleanEncB c = true ∧ 1 ≤ j ∧ j < c.length ∧
        P = c.take j) ∧ Aligned P fut := by
  intro cs
  induction cs with
  | nil =>
    intro bs fut _ heq
    simp only [List.flatten_nil, List.append_eq_nil] at heq
    obtain ⟨rfl, rfl⟩ := heq
    exact ⟨[], [], by simp, by simp, Or.inl rfl,
      Or.inl ⟨rfl, [], by simp, by simp⟩⟩
  | cons c cs' ih =>
    intro bs fut hcl heq
    have hc : cleanEncB c = true := hcl c (by simp)
    have hcg : goodEncB c = true := by
      simp only [cleanEncB, Bool.and_eq_true, decide_eq_true_eq] at hc
      exact hc.1
    have hc1 := (goodEnc_len hcg).1
    rw [List.flatten_cons] at heq
    rcases Nat.lt_or_ge bs.length c.length with hlt | hge
    · -- the chunk ends inside (or at the very start of) this encoding
      have h1 := congrArg (List.take bs.length) heq
      rw [List.take_left] at h1
      rw [List.take_append_eq_append_take,
        show bs.length - c.length = 0 by omega, List.take_zero,
        List.append_nil] at h1
      have h2 := congrArg (List.drop bs.length) heq
      rw [List.drop_left] at h2
      rw [List.drop_append_eq_append_drop,
        show bs.length - c.length = 0 by omega, List.drop_zero] at h2
      rcases Nat.eq_zero_or_pos bs.length with hz | hpos
      · have hbsnil : bs = [] := List.length_eq_zero.mp hz
        subst hbsnil
        refine ⟨[], [], by simp, by simp, Or.inl rfl,
          Or.inl ⟨rfl, c :: cs', ?_, hcl⟩⟩
        rw [List.flatten_cons]
        simpa using heq
      · exact ⟨[], bs, by simp, by simp,
          Or.inr ⟨c, bs.length, hc, hpos, hlt, h1⟩,
          Or.inr ⟨c, bs.length, cs'.flatten, hc, hpos, hlt, h1, h2,
            ⟨cs', rfl, fun c' hc' => hcl c' (by simp [hc'])⟩⟩⟩
    · -- the chunk swallows this whole encoding
      have h1 := congrArg (List.take c.length) heq
      rw [List.take_append_eq_append_take, Nat.sub_eq_zero_of_le hge,
        List.take_zero, List.append_nil, List.take_left] at h1
      have h2 := congrArg (List.drop c.length) heq
      rw [List.drop_append_eq_append_drop, Nat.sub_eq_zero_of_le hge,
        List.drop_zero, List.drop_left] at h2
      obtain ⟨ws', P, hws', hdec, hP, hal⟩ := ih (bs.drop c.length) fut
        (fun c' hc' => hcl c' (by simp [hc'])) h2
      refine ⟨c :: ws', P, ?_, ?_, hP, hal⟩
      · intro w hw
        rcases List.mem_cons.mp hw with rfl | hw'
        · exact hc
        · exact hws' w hw'
      · conv_lhs => rw [← List.take_append_drop c.length bs]
        rw [h1, hdec, List.flatten_cons, List.append_assoc]

/-- An aligned leftover at end of stream is empty. -/
theorem aligned_nil {h : List Nat} (hal : Aligned h []) : h = [] := by
  rcases hal with ⟨hh, _⟩ | ⟨c, j, t, hc, hj1, hj2, hh, hrest, _⟩
  · exact hh
  · exfalso
    have := congrArg List.length hrest
    simp at this
    omega

/-! ## Alignment is preserved by `Conduct` -/

/-- One `Conduct` iteration on an aligned state: the new leftover is
aligned with the remaining stream, and every emitted chunk is a
concatenation of clean encodings. -/
theorem conductChunk_aligned {u : Utf8St} (h4 : u.lo.length = 4)
    (h3 : u.idx ≤ 3) {bs fut : List Nat}
    (hal : Aligned (heldOf u) (bs ++ fut)) :
    ∃ u2 outs, conductChunk u bs = some (u2, outs) ∧
      u2.lo.length = 4 ∧ u2.idx ≤ 3 ∧ Aligned (heldOf u2) fut ∧
      ∀ o ∈ outs, ∃ cs : List (List Nat), o = cs.flatten ∧
        ∀ c ∈ cs, cleanEncB c = true := by
  rcases hal with ⟨hh, hcj⟩ | ⟨c, j, t, hc, hj1, hj2, hh, hrest, ht⟩
  · -- nothing is held: the chunk goes straight to storeLeftOver
    have h0 : u.idx = 0 := heldOf_idx_zero h4 hh
    obtain ⟨cs, hcs_eq, hcs⟩ := hcj
    obtain ⟨ws, P, hws, hdec, hP, halP⟩ := split_clean cs bs fut hcs hcs_eq
    obtain ⟨u2, hseq, h24, h23, hheld⟩ := storeLeftOver_aligned h4 h0 hws hP
    have hseq' : storeLeftOver u bs = some (u2, ws.flatten.length) := by
      rw [hdec]; exact hseq
    have htl : bs.take ws.flatten.length = ws.flatten := by
      rw [hdec]; exact List.take_left ws.flatten P
    have haeq : addLeftOver u bs = some (u, 0, []) := by
      unfold addLeftOver
      rw [if_pos h0]
    refine ⟨u2, [] ++ (if (bs.take ws.flatten.length).length > 0
      then [bs.take ws.flatten.length] else []), ?_, h24, h23,
      by rw [hheld]; exact halP, ?_⟩
    · unfold conductChunk
      simp only [haeq]
      rw [if_pos (by omega)]
      simp only [List.drop_zero, hseq']
      rw [if_pos (by rw [hdec]; simp)]
    · intro o ho
      rw [List.nil_append] at ho
      split_ifs at ho with hlen
      · rw [List.mem_singleton] at ho
        exact ⟨ws, by rw [ho, htl], hws⟩
      · simp at ho
  · -- a proper prefix of the next encoding is held
    have hcg : goodEncB c = true := by
      simp only [cleanEncB, Bool.and_eq_true, decide_eq_true_eq] at hc
      exact hc.1
    have hlen4 : c.length ≤ 4 := (goodEnc_len hcg).2
    have hidx : u.idx = j := by
      have hl := heldOf_length h4 h3
      rw [hh] at hl
      simp at hl
      omega
    have htk : u.lo.take j = c.take j := by
      unfold heldOf at hh
      rw [hidx] at hh
      exact hh
    rcases Nat.lt_or_ge (j + bs.length) c.length with hlt | hge
    · -- the chunk ends before completing the held character
      have hbs : bs = (c.drop j).take bs.length := by
        have h1 := congrArg (List.take bs.length) hrest
        rw [List.take_left, List.take_append_eq_append_take,
          show bs.length - (c.drop j).length = 0 by simp; omega,
          List.take_zero, List.append_nil] at h1
        exact h1
      have hfut : fut = c.drop (j + bs.length) ++ t := by
        have h2 := congrArg (List.drop bs.length) hrest
        rw [List.drop_left, List.drop_append_eq_append_drop,
          show bs.length - (c.drop j).length = 0 by simp; omega,
          List.drop_zero, List.drop_drop] at h2
        exact h2
      obtain ⟨lo', hloop, hl4, htk2⟩ :=
        addLoop_partial hcg bs.length j 0 u.lo h4 hj1 hlt htk
      rw [← hbs, Nat.zero_add] at hloop
      have haeq : addLeftOver u bs =
          some (⟨lo', j + bs.length⟩, bs.length, []) := by
        unfold addLeftOver
        rw [if_neg (by omega), hidx]
        simp only [hloop]
      by_cases hbnil : bs.length = 0
      · -- empty chunk: state unchanged
        have hbs0 : bs = [] := List.length_eq_zero.mp hbnil
        refine ⟨⟨lo', j + bs.length⟩, [], ?_, hl4,
          show j + bs.length ≤ 3 by omega, ?_, by simp⟩
        · unfold conductChunk
          simp only [haeq]
          rw [if_pos (by omega), List.drop_length]
          simp only [storeLeftOver_nil]
          simp
        · refine Or.inr ⟨c, j + bs.length, t, hc, by omega, by omega, ?_,
            by rw [hfut], ht⟩
          show lo'.take (j + bs.length) = c.take (j + bs.length)
          exact htk2
      · refine ⟨⟨lo', j + bs.length⟩, [], ?_, hl4,
          show j + bs.length ≤ 3 by omega, ?_, by simp⟩
        · unfold conductChunk
          simp only [haeq]
          rw [if_pos (by omega), List.drop_length]
          simp only [storeLeftOver_nil]
          simp
        · refine Or.inr ⟨c, j + bs.length, t, hc, by omega, by omega, ?_,
            by rw [hfut], ht⟩
          show lo'.take (j + bs.length) = c.take (j + bs.length)
          exact htk2
    · -- the chunk completes the held character
      have hL : (c.drop j).length = c.length - j := by simp
      have hbs : bs.take (c.length - j) = c.drop j := by
        have h1 := congrArg (List.take (c.drop j).length) hrest
        rw [List.take_left, List.take_append_eq_append_take,
          show (c.drop j).length - bs.length = 0 by simp; omega,
          List.take_zero, List.append_nil, hL] at h1
        exact h1
      have hrem : bs.drop (c.length - j) ++ fut = t := by
        have h2 := congrArg (List.drop (c.drop j).length) hrest
        rw [List.drop_left, List.drop_append_eq_append_drop,
          show (c.drop j).length - bs.length = 0 by simp; omega,
          List.drop_zero, hL] at h2
        exact h2
      obtain ⟨lo', hloop⟩ := addLoop_complete hcg (c.length - j) j 0 u.lo
        (bs.drop (c.length - j)) h4 hj1 hj2 rfl htk
      have hbs2 : c.drop j ++ bs.drop (c.length - j) = bs := by
        rw [← hbs, List.take_append_drop]
      rw [hbs2, Nat.zero_add] at hloop
      obtain ⟨lo2, idx2, n2, ems2, heq2, hlo2len, -, -, -, -, -, -⟩ :=
        addLoop_spec bs u.lo j 0 h4 hj1 (by omega)
      have hsame := heq2.symm.trans hloop
      rw [Option.some.injEq, Prod.mk.injEq] at hsame
      have hl4' : lo'.length = 4 := hsame.1 ▸ hlo2len
      have haeq : addLeftOver u bs = some (⟨lo', 0⟩, c.length - j, [c]) := by
        unfold addLeftOver
        rw [if_neg (by omega), hidx]
        simp only [hloop]
      obtain ⟨cs, hcs_eq, hcs⟩ := ht
      obtain ⟨ws, P, hws, hdec, hP, halP⟩ :=
        split_clean cs (bs.drop (c.length - j)) fut hcs
          (hrem.trans hcs_eq)
      obtain ⟨u2, hseq, h24, h23, hheld⟩ :=
        storeLeftOver_aligned (u := ⟨lo', 0⟩) hl4' rfl hws hP
      have hseq' : storeLeftOver (⟨lo', 0⟩ : Utf8St) (bs.drop (c.length - j)) =
          some (u2, ws.flatten.length) := by
        rw [hdec]; exact hseq
      have htl : (bs.drop (c.length - j)).take ws.flatten.length =
          ws.flatten := by
        rw [hdec]; exact List.take_left ws.flatten P
      refine ⟨u2, [c] ++ (if ((bs.drop (c.length - j)).take
          ws.flatten.length).length > 0
        then [(bs.drop (c.length - j)).take ws.flatten.length] else []),
        ?_, h24, h23, by rw [hheld]; exact halP, ?_⟩
      · unfold conductChunk
        simp only [haeq]
        rw [if_pos (by omega)]
        simp only [hseq']
        rw [if_pos (by rw [hdec]; simp)]
      · intro o ho
        rw [List.mem_append] at ho
        rcases ho with ho | ho
        · rw [List.mem_singleton] at ho
          exact ⟨[c], by simp [ho], by intro c' hc'; rw [List.mem_singleton] at hc'; rw [hc']; exact hc⟩
        · split_ifs at ho with hlen
          · rw [List.mem_singleton] at ho
            exact ⟨ws, by rw [ho, htl], hws⟩
          · simp at ho

/-- `Conduct` over a whole aligned stream. -/
theorem conductBytes_aligned : ∀ (chunks : List (List Nat)) (u : Utf8St)
    (fut : List Nat), u.lo.length = 4 → u.idx ≤ 3 →
    Aligned (heldOf u) (chunks.flatten ++ fut) →
    ∃ u2 outs, conductBytes u chunks = some (u2, outs) ∧
      u2.lo.length = 4 ∧ u2.idx ≤ 3 ∧ Aligned (heldOf u2) fut ∧
      ∀ o ∈ outs, ∃ cs : List (List Nat), o = cs.flatten ∧
        ∀ c ∈ cs, cleanEncB c = true := by
  intro chunks
  induction chunks with
  | nil =>
    intro u fut h4 h3 hal
    exact ⟨u, [], rfl, h4, h3, by simpa using hal, by simp⟩
  | cons bs rest ih =>
    intro u fut h4 h3 hal
    rw [List.flatten_cons, List.append_assoc] at hal
    obtain ⟨u1, outs1, he1, h14, h13, hal1, hcl1⟩ :=
      conductChunk_aligned h4 h3 hal
    obtain ⟨u2, outs2, he2, h24, h23, hal2, hcl2⟩ := ih u1 fut h14 h13 hal1
    refine ⟨u2, outs1 ++ outs2, ?_, h24, h23, hal2, ?_⟩
    · unfold conductBytes
      simp only [he1, he2]
    · intro o ho
      rcases List.mem_append.mp ho with ho | ho
      · exact hcl1 o ho
      · exact hcl2 o ho

/-- The greedy parser accepts any concatenation of valid encodings
(given enough fuel). -/
theorem parseB_join : ∀ (cs : List (List Nat)) (fuel : Nat),
    (∀ c ∈ cs, goodEncB c = true) → cs.length ≤ fuel →
    parseB fuel cs.flatten = true := by
  intro cs
  induction cs with
  | nil => intro fuel _ _; cases fuel <;> rfl
  | cons c cs' ih =>
    intro fuel hcl hf
    have hc : goodEncB c = true := hcl c (by simp)
    have hc1 := (goodEnc_len hc).1
    obtain ⟨f, rfl⟩ : ∃ f, fuel = f + 1 :=
      ⟨fuel - 1, by rw [List.length_cons] at hf; omega⟩
    obtain ⟨b, c', rfl⟩ : ∃ b c', c = b :: c' := by
      cases c with
      | nil => simp at hc1
      | cons b c' => exact ⟨b, c', rfl⟩
    have hrl : runeLenX b = (b :: c').length := by
      simpa using goodEnc_runeLen hc
    rw [List.flatten_cons, List.cons_append]
    simp only [parseB]
    rw [hrl, ← List.cons_append, List.take_left, List.drop_left,
      Bool.and_eq_true]
    refine ⟨hc, ih f (fun x hx => hcl x (by simp [hx])) ?_⟩
    rw [List.length_cons] at hf
    omega

theorem len_le_flatten : ∀ (cs : List (List Nat)),
    (∀ c ∈ cs, 1 ≤ c.length) → cs.length ≤ cs.flatten.length := by
  intro cs
  induction cs with
  | nil => simp
  | cons c cs' ih =>
    intro h
    rw [List.flatten_cons, List.length_append, List.length_cons]
    have h1 := h c (by simp)
    have h2 := ih (fun x hx => h x (by simp [hx]))
    omega

/-- A concatenation of valid encodings is valid UTF-8 text. -/
theorem validB_of_join {cs : List (List Nat)}
    (h : ∀ c ∈ cs, goodEncB c = true) : validB cs.flatten = true := by
  unfold validB
  exact parseB_join cs cs.flatten.length h
    (len_le_flatten cs (fun c hc => (goodEnc_len (h c hc)).1))

/-- The round trip on clean text: starting from a fresh `Utf8Conduit`,
any chunking of a clean byte stream is reproduced exactly, with
nothing left over, and every emitted chunk is valid UTF-8. -/
theorem conductBytes_clean {chunks : List (List Nat)}
    (hcj : CleanJoin chunks.flatten) :
    ∃ u2 outs, conductBytes newUtf8Conduit chunks = some (u2, outs) ∧
      heldOf u2 = [] ∧ outs.flatten = chunks.flatten ∧
      ∀ o ∈ outs, validB o = true := by
  have h4 : newUtf8Conduit.lo.length = 4 := by
    simp [newUtf8Conduit, UTFMax]
  have h3 : newUtf8Conduit.idx ≤ 3 := by
    simp [newUtf8Conduit]
  have hnew : heldOf newUtf8Conduit = [] := by
    simp [heldOf, newUtf8Conduit]
  have hal : Aligned (heldOf newUtf8Conduit) (chunks.flatten ++ []) := by
    rw [List.append_nil]
    exact Or.inl ⟨hnew, hcj⟩
  obtain ⟨u2, outs, he, h24, h23, hal2, hcl⟩ :=
    conductBytes_aligned chunks newUtf8Conduit [] h4 h3 hal
  have hheld : heldOf u2 = [] := aligned_nil hal2
  obtain ⟨uS, outsS, heS, -, -, hcontent⟩ :=
    conductBytes_spec chunks newUtf8Conduit h4 h3
  rw [he, Option.some.injEq, Prod.mk.injEq] at heS
  obtain ⟨hu, ho⟩ := heS
  subst hu
  subst ho
  refine ⟨u2, outs, he, hheld, ?_, ?_⟩
  · rw [hheld, List.append_nil, hnew, List.nil_append] at hcontent
    exact hcontent
  · intro o ho
    obtain ⟨cs, rfl, hcs⟩ := hcl o ho
    refine validB_of_join (fun c hc => ?_)
    have hcc := hcs c hc
    simp only [cleanEncB, Bool.and_eq_true] at hcc
    exact hcc.1

/-! ## Claims about the UTF-8 normalizer -/

/-- C2 (as stated, refuted): `[97, EF, BF, BD]` is valid UTF-8 text
(the letter `a` followed by U+FFFD), yet feeding it to a fresh
`Utf8Conduit` emits only `[97]`: `storeLeftOver` treats the decoded
U+FFFD at the end of the chunk as an incomplete character and holds
its three bytes back forever, so the round trip is not content
preserving. -/
theorem utf8_roundtrip_cex :
    validB [97, 0xEF, 0xBF, 0xBD] = true ∧
    (conductBytes newUtf8Conduit [[97, 0xEF, 0xBF, 0xBD]]).map
      (fun r => r.2.flatten) = some [97] ∧
    ([97] : List Nat) ≠ [97, 0xEF, 0xBF, 0xBD] := by decide

/-- C2 (amended): the round trip holds for clean text.  For any byte
stream that is a concatenation of valid character encodings, none of
which is the encoding of U+FFFD, every chunking fed to a fresh
`Utf8Conduit` is reproduced exactly: the concatenated output equals
the concatenated input. -/
theorem utf8_roundtrip_clean {chunks : List (List Nat)}
    (hcj : CleanJoin chunks.flatten) :
    ∃ u2 outs, conductBytes newUtf8Conduit chunks = some (u2, outs) ∧
      outs.flatten = chunks.flatten := by
  obtain ⟨u2, outs, he, -, hfl, -⟩ := conductBytes_clean hcj
  exact ⟨u2, outs, he, hfl⟩

theorem utf8_roundtrip_clean_witness :
    CleanJoin ([[0xC3], [0xA9, 97]] : List (List Nat)).flatten ∧
    ∃ u2 outs, conductBytes newUtf8Conduit [[0xC3], [0xA9, 97]] =
      some (u2, outs) ∧
      outs.flatten = ([[0xC3], [0xA9, 97]] : List (List Nat)).flatten := by
  have h : CleanJoin ([[0xC3], [0xA9, 97]] : List (List Nat)).flatten :=
    ⟨[[0xC3, 0xA9], [97]], by decide, by decide⟩
  exact ⟨h, utf8_roundtrip_clean h⟩

/-- C3 (as stated, refuted): the input `[EF BF BD] ++ [C3 A9]` (U+FFFD
then é) is valid UTF-8, yet the conduit emits the chunk
`[EF, BF, BD, C3]`, which ends in the middle of a multi-byte character
and is not decodable: `addLeftOver` blindly flushes its four-byte
buffer as soon as `FullRune` holds, gluing the dangling lead byte `C3`
onto the held U+FFFD. -/
theorem utf8_chunks_valid_cex :
    validB ([[0xEF, 0xBF, 0xBD], [0xC3, 0xA9]] : List (List Nat)).flatten
      = true ∧
    (conductBytes newUtf8Conduit [[0xEF, 0xBF, 0xBD], [0xC3, 0xA9]]).map
      (fun r => r.2) = some [[0xEF, 0xBF, 0xBD, 0xC3]] ∧
    validB [0xEF, 0xBF, 0xBD, 0xC3] = false := by decide

/-- C3 (amended): on clean input (no U+FFFD anywhere) every chunk the
conduit emits is wholly decodable valid UTF-8: no emitted chunk ends in
the middle of a multi-byte character. -/
theorem utf8_chunks_valid_clean {chunks : List (List Nat)}
    (hcj : CleanJoin chunks.flatten) :
    ∃ u2 outs, conductBytes newUtf8Conduit chunks = some (u2, outs) ∧
      ∀ o ∈ outs, validB o = true := by
  obtain ⟨u2, outs, he, -, -, hv⟩ := conductBytes_clean hcj
  exact ⟨u2, outs, he, hv⟩

theorem utf8_chunks_valid_clean_witness :
    CleanJoin ([[0xE2, 0x82], [0xAC]] : List (List Nat)).flatten ∧
    ∃ u2 outs, conductBytes newUtf8Conduit [[0xE2, 0x82], [0xAC]] =
      some (u2, outs) ∧ ∀ o ∈ outs, validB o = true := by
  have h : CleanJoin ([[0xE2, 0x82], [0xAC]] : List (List Nat)).flatten :=
    ⟨[[0xE2, 0x82, 0xAC]], by decide, by decide⟩
  exact ⟨h, utf8_chunks_valid_clean h⟩

/-- C6 (as stated, refuted): `NewUtf8Conduit` allocates the leftover
buffer with `make([]byte, utf8.UTFMax)` — length 4, not the claimed
max character width − 1 = 3. -/
theorem utf8_capacity_cex :
    newUtf8Conduit.lo.length = 4 ∧ newUtf8Conduit.lo.length ≠ 3 := by
  decide

/-- C6 (amended): the leftover state is bounded as claimed — after any
sequence of `Conduct` invocations at most 3 bytes are carried to the
next invocation — but the buffer itself has length `utf8.UTFMax` = 4. -/
theorem utf8_leftover_bounded (chunks : List (List Nat)) :
    ∃ u2 outs, conductBytes newUtf8Conduit chunks = some (u2, outs) ∧
      u2.lo.length = 4 ∧ (heldOf u2).length ≤ 3 := by
  obtain ⟨u2, outs, he, h4, h3, -⟩ := conductBytes_spec chunks newUtf8Conduit
    (by simp [newUtf8Conduit, UTFMax]) (by simp [newUtf8Conduit])
  refine ⟨u2, outs, he, h4, ?_⟩
  rw [heldOf_length h4 h3]
  exact h3

/-- C7 (as stated, refuted): feeding the genuinely invalid bytes
`[80] ++ [80]` (two bare continuation bytes) never yields the
replacement marker `EF BF BD`: the conduit emits the invalid bytes
themselves as `[80, 80]`.  The `trg <- u.inv` branch of `addLeftOver`
requires `u.idx` to reach `utf8.UTFMax`, but the loop resets or
returns at index 3 at the latest (any four bytes satisfy `FullRune`),
so the branch is unreachable. -/
theorem utf8_marker_cex :
    (conductBytes newUtf8Conduit [[0x80], [0x80]]).map (fun r => r.2) =
      some [[0x80, 0x80]] ∧
    invMarker ∉ ([[0x80, 0x80]] : List (List Nat)) ∧
    validB [0x80, 0x80] = false := by decide

/-- C7 (amended): the conduit never substitutes anything: on every
input, valid or invalid, it terminates without error and forwards
exactly the input bytes — concatenated output plus the held leftover
equals the concatenated input, so invalid bytes pass through raw and
no replacement marker is ever produced in place of input bytes.
(Liveness holds in the weak sense that at most 3 bytes are ever
withheld, per `utf8_leftover_bounded`'s bound.) -/
theorem utf8_no_substitution (chunks : List (List Nat)) :
    ∃ u2 outs, conductBytes newUtf8Conduit chunks = some (u2, outs) ∧
      outs.flatten ++ heldOf u2 = chunks.flatten := by
  obtain ⟨u2, outs, he, h4, h3, hc⟩ := conductBytes_spec chunks newUtf8Conduit
    (by simp [newUtf8Conduit, UTFMax]) (by simp [newUtf8Conduit])
  refine ⟨u2, outs, he, ?_⟩
  rw [show heldOf newUtf8Conduit = [] by simp [heldOf, newUtf8Conduit],
    List.nil_append] at hc
  exact hc

/-- C9 (as stated, refuted): handing a non-`[]byte` item to
`Utf8Conduit.Conduct` or to the text-mode `Printer.Consume` hits the
unchecked type assertion `inp.([]byte)` / `v.([]byte)` and panics
(modelled `none`): no `StageError` is recorded, the stage crashes. -/
theorem type_mismatch_cex :
    conductItems newUtf8Conduit [Item.num 0] = none ∧
    printerConsumeText [Item.num 0] = none := ⟨rfl, rfl⟩

/-- C9 (amended): every stream containing a non-byte-slice item makes
both stages panic at that item; the panic is unconditional — it does
not depend on the receiving state or on the rest of the stream. -/
theorem type_mismatch_panics (u : Utf8St) (n : Nat) (rest : List Item) :
    conductItems u (Item.num n :: rest) = none ∧
    printerConsumeText (Item.num n :: rest) = none := ⟨rfl, rfl⟩

/-- `Conduct` on a stream of byte-slice items: total, with the
well-formedness of the state preserved. -/
theorem conductItems_bytes : ∀ (items : List Item) (u : Utf8St),
    u.lo.length = 4 → u.idx ≤ 3 →
    (∀ it ∈ items, ∃ bs, it = Item.bytes bs) →
    ∃ u2 outs, conductItems u items = some (u2, outs) ∧
      u2.lo.length = 4 ∧ u2.idx ≤ 3 := by
  intro items
  induction items with
  | nil => intro u h4 h3 _; exact ⟨u, [], rfl, h4, h3⟩
  | cons it rest ih =>
    intro u h4 h3 hb
    obtain ⟨bs, rfl⟩ := hb it (by simp)
    obtain ⟨u1, outs1, he1, h14, h13, -⟩ := conductChunk_spec h4 h3 bs
    obtain ⟨u2, outs2, he2, h24, h23⟩ := ih u1 h14 h13
      (fun x hx => hb x (by simp [hx]))
    refine ⟨u2, outs1 ++ outs2, ?_, h24, h23⟩
    simp only [conductItems, he1, he2]

/-- C10: on every finite stream of byte-slice items — all contents
allowed, valid or invalid, empty chunks included — `Conduct` returns
normally (the Go body's single `return nil`): every buffer write and
every slice expression stays in bounds, so the normalizer never panics
and never records an error. -/
theorem conduct_total (items : List Item)
    (h : ∀ it ∈ items, ∃ bs, it = Item.bytes bs) :
    ∃ u2 outs, conductItems newUtf8Conduit items = some (u2, outs) := by
  obtain ⟨u2, outs, he, -, -⟩ := conductItems_bytes items newUtf8Conduit
    (by simp [newUtf8Conduit, UTFMax]) (by simp [newUtf8Conduit]) h
  exact ⟨u2, outs, he⟩

theorem conduct_total_witness :
    (∀ it ∈ [Item.bytes [0x80, 65], Item.bytes []],
      ∃ bs, it = Item.bytes bs) ∧
    ∃ u2 outs, conductItems newUtf8Conduit
      [Item.bytes [0x80, 65], Item.bytes []] = some (u2, outs) := by
  have h : ∀ it ∈ [Item.bytes [0x80, 65], Item.bytes []],
      ∃ bs, it = Item.bytes bs := by
    intro it hit
    rw [List.mem_cons, List.mem_singleton] at hit
    rcases hit with rfl | rfl
    · exact ⟨[0x80, 65], rfl⟩
    · exact ⟨[], rfl⟩
  exact ⟨h, conduct_total _ h⟩

/-! ## Pipe segment lemmas -/

theorem headQ_pushHead {α} (p : Pipe α) (x : α) :
    Pipe.headQ (p.pushHead x) = ⟨(Pipe.headQ p).buf ++ [x], (Pipe.headQ p).closed⟩ := by
  cases p <;> rfl

theorem headQ_closeHead {α} (p : Pipe α) :
    Pipe.headQ p.closeHead = ⟨(Pipe.headQ p).buf, true⟩ := by
  cases p <;> rfl

theorem wf_pushHead {α} (p : Pipe α) (x : α) :
    Pipe.wf (p.pushHead x) ↔ p.wf := by
  cases p <;> exact Iff.rfl

theorem wf_closeHead {α} (p : Pipe α) : Pipe.wf p.closeHead ↔ p.wf := by
  cases p <;> exact Iff.rfl

theorem passThrough_pushHead {α} (p : Pipe α) (x : α) :
    Pipe.passThrough (p.pushHead x) ↔ p.passThrough := by
  cases p <;> exact Iff.rfl

theorem passThrough_closeHead {α} (p : Pipe α) :
    Pipe.passThrough p.closeHead ↔ p.passThrough := by
  cases p <;> exact Iff.rfl

theorem items_pushHead {α} (p : Pipe α) (x : α) :
    Pipe.items (p.pushHead x) = p.items ++ [x] := by
  cases p <;> simp [Pipe.pushHead, Pipe.items]

theorem items_closeHead {α} (p : Pipe α) : Pipe.items p.closeHead = p.items := by
  cases p <;> rfl

theorem doneDrained_pushHead {α} {p : Pipe α}
    (hcl : (Pipe.headQ p).closed = false) (h : p.doneDrained) (x : α) :
    Pipe.doneDrained (p.pushHead x) := by
  cases p with
  | last q r => trivial
  | cell q c rest =>
    refine ⟨fun hd => ?_, h.2⟩
    have h1 := (h.1 hd).1
    simp only [Pipe.headQ] at hcl
    rw [hcl] at h1
    exact absurd h1 (by decide)

theorem doneDrained_closeHead {α} {p : Pipe α} (h : p.doneDrained) :
    Pipe.doneDrained p.closeHead := by
  cases p with
  | last q r => trivial
  | cell q c rest => exact ⟨fun hd => ⟨rfl, (h.1 hd).2⟩, h.2⟩

theorem items_of_empty {α} : ∀ {p : Pipe α}, p.allEmpty → p.items = p.recvd := by
  intro p
  induction p with
  | last q r =>
    intro h
    simp only [Pipe.allEmpty] at h
    simp only [Pipe.items, Pipe.recvd, h, List.append_nil]
  | cell q c rest ih =>
    intro h
    simp only [Pipe.allEmpty] at h
    simp only [Pipe.items, Pipe.recvd, h.1, List.append_nil]
    exact ih h.2

/-- Down a pipe whose sink-side feed is closed: every conduit is done,
the producer-side feed is closed, and (if the sink-side buffer is
empty) every feed is drained — provided no error was recorded, so
every completion was a `range` exhaustion. -/
theorem closed_chain {α} : ∀ {p : Pipe α}, p.wf → p.doneDrained →
    p.lastClosed = true →
    p.allDone ∧ (Pipe.headQ p).closed = true ∧ (p.lastBuf = [] → p.allEmpty) := by
  intro p
  induction p with
  | last q r =>
    intro _ _ hlc
    simp only [Pipe.lastClosed] at hlc
    refine ⟨trivial, hlc, fun hb => ?_⟩
    simp only [Pipe.allEmpty]
    simpa [Pipe.lastBuf, Pipe.lastQ] using hb
  | cell q c rest ih =>
    intro hwf hdd hlc
    simp only [Pipe.lastClosed] at hlc
    obtain ⟨hra, hrc, hre⟩ := ih hwf.2 hdd.2 hlc
    have hdone : c.done = true := by rw [← hwf.1]; exact hrc
    obtain ⟨hqc, hqb⟩ := hdd.1 hdone
    refine ⟨⟨hdone, hra⟩, hqc, fun hb => ⟨hqb, hre ?_⟩⟩
    simpa [Pipe.lastBuf, Pipe.lastQ] using hb

theorem decBudget_done (c : CondSt) : (decBudget c).done = c.done := rfl

theorem decBudget_none {c : CondSt} :
    (decBudget c).budget = none ↔ c.budget = none := by
  cases hb : c.budget <;> simp [decBudget, hb]

/-! ## The freshly wired pipe -/

theorem headQ_initPipe {α} (conds : List (Option Nat × Nat)) :
    Pipe.headQ (initPipe α conds) = ⟨[], false⟩ := by
  cases conds with
  | nil => rfl
  | cons ce rest => obtain ⟨b, e⟩ := ce; rfl

theorem wf_initPipe {α} : ∀ (conds : List (Option Nat × Nat)),
    Pipe.wf (initPipe α conds)
  | [] => trivial
  | (b, e) :: rest => ⟨by rw [headQ_initPipe], wf_initPipe rest⟩

theorem doneDrained_initPipe {α} : ∀ (conds : List (Option Nat × Nat)),
    Pipe.doneDrained (initPipe α conds)
  | [] => trivial
  | (_b, _e) :: rest =>
    ⟨(fun hd => nomatch hd), doneDrained_initPipe rest⟩

theorem items_initPipe {α} : ∀ (conds : List (Option Nat × Nat)),
    Pipe.items (initPipe α conds) = []
  | [] => rfl
  | (b, e) :: rest => by
    simp [initPipe, Pipe.items, items_initPipe rest]

theorem passThrough_initPipe {α} : ∀ (conds : List (Option Nat × Nat)),
    (∀ ce ∈ conds, ce.1 = none) → Pipe.passThrough (initPipe α conds)
  | [], _ => trivial
  | (b, e) :: rest, h =>
    ⟨by simpa using h (b, e) (by simp),
      passThrough_initPipe rest (fun ce hce => h ce (by simp [hce]))⟩

/-! ## Facts about one pipe transition -/

/-- What a single `PStep` preserves or changes: well-formedness,
the producer-side closed flag, pass-through-ness, the item content
(when pass-through), the drain invariant, the error log (append-only),
and the `Run` result (set exactly once, by the sink's completion). -/
theorem pstep_facts {α : Type} {C : Nat} {serr : Option Nat}
    {p p' : Pipe α} {errs errs' : List Nat} {res res' : Option Bool}
    (h : PStep C serr p errs res p' errs' res') :
    (p.wf → p'.wf) ∧
    (Pipe.headQ p').closed = (Pipe.headQ p).closed ∧
    (p'.passThrough ↔ p.passThrough) ∧
    (p.passThrough → p'.items = p.items) ∧
    (p.wf → p.doneDrained → errs' = [] → p'.doneDrained) ∧
    (∃ t, errs' = errs ++ t) ∧
    (res' = res ∨ (res = none ∧ p' = p ∧ p.lastClosed = true ∧
      p.lastBuf = [] ∧ errs' = errs ++ serr.toList ∧
      res' = some (decide (errs ++ serr.toList ≠ [])))) ∧
    (p.passThrough → errs' = errs ++ serr.toList ∨ errs' = errs) := by
  induction h with
  | condMove q c rest x bs errs res hdone hbud hbuf hspace =>
    refine ⟨?_, rfl, ?_, ?_, ?_, ⟨[], by simp⟩, Or.inl rfl,
      fun _ => Or.inr rfl⟩
    · intro hwf
      refine ⟨?_, (wf_pushHead rest x).mpr hwf.2⟩
      rw [headQ_pushHead, decBudget_done]
      exact hwf.1
    · show (decBudget c).budget = none ∧ _ ↔ c.budget = none ∧ _
      rw [decBudget_none, passThrough_pushHead]
    · intro _
      show Pipe.items (rest.pushHead x) ++ bs = Pipe.items rest ++ q.buf
      rw [items_pushHead, hbuf, List.append_assoc, List.singleton_append]
    · intro hwf hdd _
      refine ⟨?_, ?_⟩
      · rw [decBudget_done]
        intro hd
        rw [hd] at hdone
        exact absurd hdone (by decide)
      · refine doneDrained_pushHead ?_ hdd.2 x
        rw [hwf.1, hdone]
  | condFail q c rest x bs errs res hdone hbud hbuf =>
    refine ⟨?_, rfl, ?_, ?_, ?_, ⟨[c.ecode], rfl⟩, Or.inl rfl, ?_⟩
    · intro hwf
      refine ⟨?_, (wf_closeHead rest).mpr hwf.2⟩
      rw [headQ_closeHead]
    · constructor
      · intro hp
        have h1 : c.budget = none := hp.1
        rw [hbud] at h1
        exact Option.noConfusion h1
      · intro hp
        have h1 : c.budget = none := hp.1
        rw [hbud] at h1
        exact Option.noConfusion h1
    · intro hp
      have h1 : c.budget = none := hp.1
      rw [hbud] at h1
      exact Option.noConfusion h1
    · intro _ _ he
      exact absurd he (by simp)
    · intro hp
      have h1 : c.budget = none := hp.1
      rw [hbud] at h1
      exact Option.noConfusion h1
  | condFinish q c rest errs res hdone hbuf hclosed =>
    refine ⟨?_, rfl, ?_, ?_, ?_, ⟨[], by simp⟩, Or.inl rfl,
      fun _ => Or.inr rfl⟩
    · intro hwf
      refine ⟨?_, (wf_closeHead rest).mpr hwf.2⟩
      rw [headQ_closeHead]
    · show (⟨c.budget, c.ecode, true⟩ : CondSt).budget = none ∧ _ ↔
        c.budget = none ∧ _
      rw [show (⟨c.budget, c.ecode, true⟩ : CondSt).budget = c.budget from rfl,
        passThrough_closeHead]
    · intro _
      show Pipe.items rest.closeHead ++ q.buf = Pipe.items rest ++ q.buf
      rw [items_closeHead]
    · intro _ hdd _
      exact ⟨fun _ => ⟨hclosed, hbuf⟩, doneDrained_closeHead hdd.2⟩
  | sinkTake q recvd x bs errs res hres hbuf =>
    refine ⟨fun _ => trivial, rfl, Iff.rfl, ?_, fun _ _ _ => trivial,
      ⟨[], by simp⟩, Or.inl rfl, fun _ => Or.inr rfl⟩
    intro _
    show (recvd ++ [x]) ++ bs = recvd ++ q.buf
    rw [hbuf, List.append_assoc, List.singleton_append]
  | sinkFinish q recvd errs res hres hbuf hclosed =>
    refine ⟨fun h => h, rfl, Iff.rfl, fun _ => rfl, fun _ hdd _ => hdd,
      ⟨serr.toList, rfl⟩, Or.inr ⟨hres, rfl, ?_, ?_, rfl, rfl⟩,
      fun _ => Or.inl rfl⟩
    · exact hclosed
    · simpa [Pipe.lastBuf, Pipe.lastQ] using hbuf
  | inner q c rest rest' errs errs' res res' hstep ih =>
    obtain ⟨iA, iB, iC, iD, iE, iF, iG, iH⟩ := ih
    refine ⟨?_, rfl, ?_, ?_, ?_, iF, ?_, fun hp => iH hp.2⟩
    · intro hwf
      refine ⟨?_, iA hwf.2⟩
      rw [iB]
      exact hwf.1
    · show c.budget = none ∧ _ ↔ c.budget = none ∧ _
      rw [iC]
    · intro hp
      show Pipe.items rest' ++ q.buf = Pipe.items rest ++ q.buf
      rw [iD hp.2]
    · intro hwf hdd he
      exact ⟨hdd.1, iE hwf.2 hdd.2 he⟩
    · rcases iG with hG | ⟨h1, h2, h3, h4, h5, h6⟩
      · exact Or.inl hG
      · refine Or.inr ⟨h1, ?_, ?_, ?_, h5, h6⟩
        · rw [h2]
        · simpa [Pipe.lastClosed] using h3
        · simpa [Pipe.lastBuf, Pipe.lastQ] using h4

/-- No pipe transition fires once every conduit is done, every feed is
drained, and the sink has delivered its result. -/
theorem no_pstep_done {α : Type} {C : Nat} {serr : Option Nat}
    {p p' : Pipe α} {errs errs' : List Nat} {res res' : Option Bool}
    (hda : p.allDone) (hem : p.allEmpty) (hres : res ≠ none)
    (h : PStep C serr p errs res p' errs' res') : False := by
  induction h with
  | condMove q c rest x bs errs res hdone _ _ _ =>
    rw [hda.1] at hdone
    exact absurd hdone (by decide)
  | condFail q c rest x bs errs res hdone _ _ =>
    rw [hda.1] at hdone
    exact absurd hdone (by decide)
  | condFinish q c rest errs res hdone _ _ =>
    rw [hda.1] at hdone
    exact absurd hdone (by decide)
  | sinkTake q recvd x bs errs res hr hbuf =>
    rw [show Pipe.allEmpty (Pipe.last q recvd) = (q.buf = []) from rfl] at hem
    rw [hem] at hbuf
    exact List.noConfusion hbuf
  | sinkFinish q recvd errs res hr _ _ => exact hres hr
  | inner q c rest rest' errs errs' res res' hstep ih =>
    exact ih hda.2 hem.2 hres

/-! ## The run invariant -/

theorem inv_init {α : Type} (itemsP : List α) (perr serr : Option Nat)
    (conds : List (Option Nat × Nat)) :
    Inv itemsP (initSt itemsP perr conds serr) := by
  simp only [Inv, initSt]
  refine ⟨wf_initPipe conds, ?_, ?_, fun _ => doneDrained_initPipe conds,
    ?_, ?_, ?_⟩
  · rw [headQ_initPipe]
  · intro h
    exact Bool.noConfusion h
  · intro _
    rw [items_initPipe]
    rfl
  · intro h
    exact Option.noConfusion h
  · intro h
    exact Option.noConfusion h

theorem inv_preserved {α : Type} {C : Nat} {itemsP : List α} {σ σ' : ChSt α}
    (hinv : Inv itemsP σ) (hs : Step C σ σ') : Inv itemsP σ' := by
  obtain ⟨iwf, ihd, ipr, idd, iit, irf, irt⟩ := hinv
  cases hs with
  | prodSend x xs hpd hrem hspace =>
    refine ⟨?_, ?_, ?_, ?_, ?_, ?_, ?_⟩
    · show Pipe.wf (σ.pipe.pushHead x)
      exact (wf_pushHead _ _).mpr iwf
    · show (Pipe.headQ (σ.pipe.pushHead x)).closed = σ.prodDone
      rw [headQ_pushHead]
      exact ihd
    · show σ.prodDone = true → xs = []
      intro h
      rw [hpd] at h
      exact Bool.noConfusion h
    · show σ.errs = [] → Pipe.doneDrained (σ.pipe.pushHead x)
      intro he
      exact doneDrained_pushHead (by rw [ihd, hpd]) (idd he) x
    · show Pipe.passThrough (σ.pipe.pushHead x) →
        Pipe.items (σ.pipe.pushHead x) ++ xs = itemsP
      intro hp
      rw [items_pushHead, List.append_assoc, List.singleton_append, ← hrem]
      exact iit ((passThrough_pushHead _ _).mp hp)
    · show σ.res = some false → _
      intro h
      obtain ⟨-, hpd2, -, -⟩ := irf h
      rw [hpd2] at hpd
      exact Bool.noConfusion hpd
    · show σ.res = some true → σ.errs ≠ []
      exact irt
  | prodClose hpd hrem =>
    refine ⟨?_, ?_, ?_, ?_, ?_, ?_, ?_⟩
    · show Pipe.wf σ.pipe.closeHead
      exact (wf_closeHead _).mpr iwf
    · show (Pipe.headQ σ.pipe.closeHead).closed = true
      rw [headQ_closeHead]
    · show true = true → σ.prodRem = []
      intro _
      exact hrem
    · show σ.errs ++ σ.prodErr.toList = [] → Pipe.doneDrained σ.pipe.closeHead
      intro he
      rw [List.append_eq_nil] at he
      exact doneDrained_closeHead (idd he.1)
    · show Pipe.passThrough σ.pipe.closeHead →
        Pipe.items σ.pipe.closeHead ++ σ.prodRem = itemsP
      intro hp
      rw [items_closeHead]
      exact iit ((passThrough_closeHead _).mp hp)
    · show σ.res = some false → _
      intro h
      obtain ⟨-, hpd2, -, -⟩ := irf h
      rw [hpd2] at hpd
      exact Bool.noConfusion hpd
    · show σ.res = some true → σ.errs ++ σ.prodErr.toList ≠ []
      intro h hc
      rw [List.append_eq_nil] at hc
      exact irt h hc.1
  | pipe pipe' errs' res' hp =>
    obtain ⟨fA, fB, fC, fD, fE, ⟨tl, hF⟩, fG, -⟩ := pstep_facts hp
    refine ⟨?_, ?_, ?_, ?_, ?_, ?_, ?_⟩
    · show Pipe.wf pipe'
      exact fA iwf
    · show (Pipe.headQ pipe').closed = σ.prodDone
      rw [fB]
      exact ihd
    · show σ.prodDone = true → σ.prodRem = []
      exact ipr
    · show errs' = [] → Pipe.doneDrained pipe'
      intro he
      refine fE iwf (idd ?_) he
      rw [hF, List.append_eq_nil] at he
      exact he.1
    · show Pipe.passThrough pipe' → Pipe.items pipe' ++ σ.prodRem = itemsP
      intro hpp
      have hp0 := fC.mp hpp
      rw [fD hp0]
      exact iit hp0
    · show res' = some false → errs' = [] ∧ σ.prodDone = true ∧
        Pipe.allDone pipe' ∧ Pipe.allEmpty pipe'
      intro hres
      rcases fG with hG | ⟨hnone, hpp, hlc, hlb, herr, hres2⟩
      · rw [hG] at hres
        obtain ⟨-, -, hda0, hem0⟩ := irf hres
        have hrne : σ.res ≠ none := by rw [hres]; simp
        exact (no_pstep_done hda0 hem0 hrne hp).elim
      · subst hpp
        rw [hres] at hres2
        have hd2 : decide (σ.errs ++ σ.sinkErr.toList ≠ []) = false :=
          (Option.some.inj hres2).symm
        rw [decide_eq_false_iff_not, not_not, List.append_eq_nil] at hd2
        have hdd := idd hd2.1
        obtain ⟨hda, hhc, hemp⟩ := closed_chain iwf hdd hlc
        refine ⟨by rw [herr, hd2.1, hd2.2]; rfl, ?_, hda, hemp hlb⟩
        rw [← ihd]
        exact hhc
    · show res' = some true → errs' ≠ []
      intro hres
      rcases fG with hG | ⟨hnone, hpp, hlc, hlb, herr, hres2⟩
      · rw [hG] at hres
        have h0 := irt hres
        rw [hF]
        intro hc
        rw [List.append_eq_nil] at hc
        exact h0 hc.1
      · rw [hres] at hres2
        have hd2 := (Option.some.inj hres2).symm
        rw [herr]
        exact of_decide_eq_true hd2

theorem reach_inv {α : Type} {C : Nat} {itemsP : List α}
    {perr serr : Option Nat} {conds : List (Option Nat × Nat)} {σ : ChSt α}
    (h : Reach C (initSt itemsP perr conds serr) σ) : Inv itemsP σ := by
  induction h with
  | refl => exact inv_init itemsP perr serr conds
  | tail hr hs ih => exact inv_preserved ih hs

/-- In a run wired only from pass-through conduits, with an error-free
producer and consumer, the pipe stays pass-through and the `ErrorLog`
stays empty. -/
theorem reach_clean {α : Type} {C : Nat} {itemsP : List α}
    {conds : List (Option Nat × Nat)} {σ : ChSt α}
    (hpass : ∀ ce ∈ conds, ce.1 = none)
    (h : Reach C (initSt itemsP none conds none) σ) :
    σ.pipe.passThrough ∧ σ.errs = [] ∧ σ.prodErr = none ∧
      σ.sinkErr = none := by
  induction h with
  | refl => exact ⟨passThrough_initPipe conds hpass, rfl, rfl, rfl⟩
  | tail hr hs ih =>
    obtain ⟨ip, ie, ipe, ise⟩ := ih
    cases hs with
    | prodSend x xs hpd hrem hspace =>
      exact ⟨(passThrough_pushHead _ _).mpr ip, ie, ipe, ise⟩
    | prodClose hpd hrem =>
      refine ⟨(passThrough_closeHead _).mpr ip, ?_, ipe, ise⟩
      simp only [ie, ipe]
      rfl
    | pipe pipe' errs' res' hp =>
      obtain ⟨-, -, fC, -, -, -, -, fH⟩ := pstep_facts hp
      refine ⟨fC.mpr ip, ?_, ipe, ise⟩
      show errs' = []
      rcases fH ip with h1 | h1
      · rw [h1, ie, ise]
        rfl
      · rw [h1, ie]

/-! ## Progress -/

/-- As long as the sink's feed is fed or closed, some pipe transition
fires (`1 ≤ C` rules out zero-capacity deadlock at a full feed). -/
theorem pipe_progress {α : Type} {C : Nat} (serr : Option Nat) (hC : 1 ≤ C) :
    ∀ (p : Pipe α) (errs : List Nat), p.wf →
    ((Pipe.headQ p).buf ≠ [] ∨ (Pipe.headQ p).closed = true) →
    ∃ p' errs' res', PStep C serr p errs none p' errs' res' := by
  intro p
  induction p with
  | last q r =>
    intro errs _ hact
    rcases hbuf : q.buf with _ | ⟨x, bs⟩
    · rcases hact with hne | hcl
      · exact absurd hbuf hne
      · exact ⟨_, _, _, PStep.sinkFinish q r errs none rfl hbuf hcl⟩
    · exact ⟨_, _, _, PStep.sinkTake q r x bs errs none rfl hbuf⟩
  | cell q c rest ih =>
    intro errs hwf hact
    by_cases hdone : c.done = true
    · have hcl : (Pipe.headQ rest).closed = true := by rw [hwf.1, hdone]
      obtain ⟨p', errs', res', hstep⟩ := ih errs hwf.2 (Or.inr hcl)
      exact ⟨_, _, _, PStep.inner q c rest p' errs errs' none res' hstep⟩
    · have hdone' : c.done = false := by
        cases hcd : c.done
        · rfl
        · exact absurd hcd hdone
      rcases hbuf : q.buf with _ | ⟨x, bs⟩
      · rcases hact with hne | hcl
        · exact absurd hbuf hne
        · exact ⟨_, _, _,
            PStep.condFinish q c rest errs none hdone' hbuf hcl⟩
      · by_cases hbud : c.budget = some 0
        · exact ⟨_, _, _,
            PStep.condFail q c rest x bs errs none hdone' hbud hbuf⟩
        · by_cases hspace : (Pipe.headQ rest).buf.length < C
          · exact ⟨_, _, _,
              PStep.condMove q c rest x bs errs none hdone' hbud hbuf hspace⟩
          · have hne : (Pipe.headQ rest).buf ≠ [] := by
              intro hnil
              rw [hnil] at hspace
              simp at hspace
              omega
            obtain ⟨p', errs', res', hstep⟩ := ih errs hwf.2 (Or.inl hne)
            exact ⟨_, _, _, PStep.inner q c rest p' errs errs' none res' hstep⟩

/-- While `Run` has not delivered its result, the system can move. -/
theorem progress {α : Type} {C : Nat} {itemsP : List α} {σ : ChSt α}
    (hC : 1 ≤ C) (hinv : Inv itemsP σ) (hres : σ.res = none) :
    ∃ σ', Step C σ σ' := by
  obtain ⟨iwf, ihd, -, -, -, -, -⟩ := hinv
  cases hpd : σ.prodDone with
  | false =>
    rcases hrem : σ.prodRem with _ | ⟨x, xs⟩
    · exact ⟨_, Step.prodClose σ hpd hrem⟩
    · by_cases hspace : (Pipe.headQ σ.pipe).buf.length < C
      · exact ⟨_, Step.prodSend σ x xs hpd hrem hspace⟩
      · have hne : (Pipe.headQ σ.pipe).buf ≠ [] := by
          intro hnil
          rw [hnil] at hspace
          simp at hspace
          omega
        obtain ⟨p', errs', res', hstep⟩ :=
          pipe_progress σ.sinkErr hC σ.pipe σ.errs iwf (Or.inl hne)
        refine ⟨_, Step.pipe σ p' errs' res' ?_⟩
        rw [hres]
        exact hstep
  | true =>
    have hcl : (Pipe.headQ σ.pipe).closed = true := by rw [ihd, hpd]
    obtain ⟨p', errs', res', hstep⟩ :=
      pipe_progress σ.sinkErr hC σ.pipe σ.errs iwf (Or.inr hcl)
    refine ⟨_, Step.pipe σ p' errs' res' ?_⟩
    rw [hres]
    exact hstep

/-! ## Claims about the chain orchestrator -/

/-- C1: for every finite item sequence, every capacity `C ≥ 1` and
every pipeline of pass-through conduits, a run that has reached a
state where nothing can move any more has delivered to the sink
exactly the produced sequence — same items, same order, no loss, no
duplication — with `Run` returning nil and an empty `ErrorLog`. -/
theorem pipeline_delivers {α : Type} {C : Nat} {itemsP : List α}
    {conds : List (Option Nat × Nat)} {σ : ChSt α} (hC : 1 ≤ C)
    (hpass : ∀ ce ∈ conds, ce.1 = none)
    (h : Reach C (initSt itemsP none conds none) σ)
    (hterm : Terminal C σ) :
    σ.pipe.recvd = itemsP ∧ σ.res = some false ∧ σ.errs = [] := by
  have hinv := reach_inv h
  obtain ⟨hpt, herrs, -, -⟩ := reach_clean hpass h
  obtain ⟨iwf, ihd, ipr, idd, iit, irf, irt⟩ := hinv
  rcases hres : σ.res with _ | b
  · obtain ⟨σ', hs⟩ := progress hC ⟨iwf, ihd, ipr, idd, iit, irf, irt⟩ hres
    exact absurd hs (hterm σ')
  · cases b with
    | true => exact absurd herrs (irt hres)
    | false =>
      obtain ⟨-, hpd, -, hem⟩ := irf hres
      have hrem : σ.prodRem = [] := ipr hpd
      have hit := iit hpt
      rw [hrem, List.append_nil] at hit
      refine ⟨?_, rfl, herrs⟩
      rw [← items_of_empty hem]
      exact hit

theorem pipeline_delivers_witness :
    (1 ≤ 1) ∧ (∀ ce ∈ ([] : List (Option Nat × Nat)), ce.1 = none) ∧
    Reach 1 (initSt [3] none [] none)
      ⟨[], none, true, Pipe.last ⟨[], true⟩ [3], [], none, some false⟩ ∧
    Terminal 1 (⟨[], none, true, Pipe.last ⟨[], true⟩ [3], [], none,
      some false⟩ : ChSt Nat) ∧
    ((⟨[], none, true, Pipe.last ⟨[], true⟩ [3], [], none,
      some false⟩ : ChSt Nat).pipe.recvd = [3] ∧
     (⟨[], none, true, Pipe.last ⟨[], true⟩ [3], [], none,
      some false⟩ : ChSt Nat).res = some false ∧
     (⟨[], none, true, Pipe.last ⟨[], true⟩ [3], [], none,
      some false⟩ : ChSt Nat).errs = []) := by
  have hC : 1 ≤ 1 := le_rfl
  have hpass : ∀ ce ∈ ([] : List (Option Nat × Nat)), ce.1 = none := by
    intro ce hce
    exact absurd hce (List.not_mem_nil ce)
  have hr : Reach 1 (initSt [3] none [] none)
      ⟨[], none, true, Pipe.last ⟨[], true⟩ [3], [], none, some false⟩ := by
    refine Relation.ReflTransGen.head
      (Step.prodSend _ 3 [] rfl rfl (by decide)) ?_
    refine Relation.ReflTransGen.head
      (Step.pipe _ _ _ _ (PStep.sinkTake ⟨[3], false⟩ [] 3 [] [] none
        rfl rfl)) ?_
    refine Relation.ReflTransGen.head (Step.prodClose _ rfl rfl) ?_
    refine Relation.ReflTransGen.head
      (Step.pipe _ _ _ _ (PStep.sinkFinish ⟨[], true⟩ [3] [] none
        rfl rfl rfl)) ?_
    exact Relation.ReflTransGen.refl
  have hterm : Terminal 1 (⟨[], none, true, Pipe.last ⟨[], true⟩ [3], [],
      none, some false⟩ : ChSt Nat) := by
    intro σ' hs
    cases hs with
    | prodSend x xs hpd hrem hspace => exact Bool.noConfusion hpd
    | prodClose hpd hrem => exact Bool.noConfusion hpd
    | pipe pipe' errs' res' hp =>
      cases hp <;> simp_all
  exact ⟨hC, hpass, hr, hterm, pipeline_delivers hC hpass hr hterm⟩

/-- C4: whenever `Run()` has delivered its verdict, the verdict is a
non-nil "Errors occurred" error exactly when some stage error was
appended to the `ErrorLog`; a nil verdict means the log is empty. -/
theorem run_error_iff {α : Type} {C : Nat} {itemsP : List α}
    {perr serr : Option Nat} {conds : List (Option Nat × Nat)} {σ : ChSt α}
    (h : Reach C (initSt itemsP perr conds serr) σ) {b : Bool}
    (hres : σ.res = some b) : (b = true ↔ σ.errs ≠ []) := by
  obtain ⟨-, -, -, -, -, irf, irt⟩ := reach_inv h
  cases b with
  | true => exact ⟨fun _ => irt hres, fun _ => rfl⟩
  | false =>
    constructor
    · intro hb
      exact Bool.noConfusion hb
    · intro hne
      exact absurd (irf hres).1 hne

theorem run_error_iff_witness :
    Reach 1 (initSt ([] : List Nat) none [] none)
      ⟨[], none, true, Pipe.last ⟨[], true⟩ [], [], none, some false⟩ ∧
    (⟨[], none, true, Pipe.last ⟨[], true⟩ [], [], none,
      some false⟩ : ChSt Nat).res = some false ∧
    (false = true ↔
      (⟨[], none, true, Pipe.last ⟨[], true⟩ [], [], none,
        some false⟩ : ChSt Nat).errs ≠ []) := by
  have hr : Reach 1 (initSt ([] : List Nat) none [] none)
      ⟨[], none, true, Pipe.last ⟨[], true⟩ [], [], none, some false⟩ := by
    refine Relation.ReflTransGen.head (Step.prodClose _ rfl rfl) ?_
    refine Relation.ReflTransGen.head
      (Step.pipe _ _ _ _ (PStep.sinkFinish ⟨[], true⟩ [] [] none
        rfl rfl rfl)) ?_
    exact Relation.ReflTransGen.refl
  exact ⟨hr, rfl, run_error_iff hr rfl⟩

/-- C5 (as stated, refuted): `Run()` can return while the producer's
goroutine is still running.  With capacity 1, items `[1, 2]` and one
conduit that fails on its first item, the conduit consumes item 1,
records its error and closes its output; the sink then completes and
`Run` returns the "Errors occurred" verdict — while the producer still
holds item 2 and has not finished (it is blocked on a channel nobody
reads; had it failed later, its error would be missed). -/
theorem run_returns_early_cex :
    ∃ σ : ChSt Nat, Reach 1 (initSt [1, 2] none [(some 0, 7)] none) σ ∧
      σ.res = some true ∧ σ.prodDone = false ∧ σ.prodRem = [2] := by
  refine ⟨⟨[2], none, false,
    Pipe.cell ⟨[], false⟩ ⟨some 0, 7, true⟩ (Pipe.last ⟨[], true⟩ []),
    [7], none, some true⟩, ?_, rfl, rfl, rfl⟩
  refine Relation.ReflTransGen.head
    (Step.prodSend _ 1 [2] rfl rfl (by decide)) ?_
  refine Relation.ReflTransGen.head
    (Step.pipe _ _ _ _
      (PStep.condFail ⟨[1], false⟩ ⟨some 0, 7, false⟩
        (Pipe.last ⟨[], false⟩ []) 1 [] [] none rfl rfl rfl)) ?_
  refine Relation.ReflTransGen.head
    (Step.pipe _ _ _ _
      (PStep.inner ⟨[], false⟩ ⟨some 0, 7, true⟩ (Pipe.last ⟨[], true⟩ []) _
        [7] _ none _
        (PStep.sinkFinish ⟨[], true⟩ [] [7] none rfl rfl rfl))) ?_
  exact Relation.ReflTransGen.refl

/-- C5 (amended): when `Run()` returns nil, it really is a join point:
the producer has completed and sent everything, every conduit has
completed, every feed is drained and the `ErrorLog` is empty.  The
as-stated claim fails only for runs in which a stage errs
(`run_returns_early_cex`). -/
theorem run_nil_joins {α : Type} {C : Nat} {itemsP : List α}
    {perr serr : Option Nat} {conds : List (Option Nat × Nat)} {σ : ChSt α}
    (h : Reach C (initSt itemsP perr conds serr) σ)
    (hres : σ.res = some false) :
    σ.prodDone = true ∧ σ.prodRem = [] ∧ σ.pipe.allDone ∧
      σ.pipe.allEmpty ∧ σ.errs = [] := by
  obtain ⟨-, -, ipr, -, -, irf, -⟩ := reach_inv h
  obtain ⟨he, hpd, hda, hem⟩ := irf hres
  exact ⟨hpd, ipr hpd, hda, hem, he⟩

theorem run_nil_joins_witness :
    Reach 2 (initSt [5] none [] none)
      ⟨[], none, true, Pipe.last ⟨[], true⟩ [5], [], none, some false⟩ ∧
    (⟨[], none, true, Pipe.last ⟨[], true⟩ [5], [], none,
      some false⟩ : ChSt Nat).res = some false ∧
    ((⟨[], none, true, Pipe.last ⟨[], true⟩ [5], [], none,
      some false⟩ : ChSt Nat).prodDone = true ∧
     (⟨[], none, true, Pipe.last ⟨[], true⟩ [5], [], none,
      some false⟩ : ChSt Nat).prodRem = [] ∧
     Pipe.allDone (⟨[], none, true, Pipe.last ⟨[], true⟩ [5], [], none,
      some false⟩ : ChSt Nat).pipe ∧
     Pipe.allEmpty (⟨[], none, true, Pipe.last ⟨[], true⟩ [5], [], none,
      some false⟩ : ChSt Nat).pipe ∧
     (⟨[], none, true, Pipe.last ⟨[], true⟩ [5], [], none,
      some false⟩ : ChSt Nat).errs = []) := by
  have hr : Reach 2 (initSt [5] none [] none)
      ⟨[], none, true, Pipe.last ⟨[], true⟩ [5], [], none, some false⟩ := by
    refine Relation.ReflTransGen.head
      (Step.prodSend _ 5 [] rfl rfl (by decide)) ?_
    refine Relation.ReflTransGen.head (Step.prodClose _ rfl rfl) ?_
    refine Relation.ReflTransGen.head
      (Step.pipe _ _ _ _ (PStep.sinkTake ⟨[5], true⟩ [] 5 [] [] none
        rfl rfl)) ?_
    refine Relation.ReflTransGen.head
      (Step.pipe _ _ _ _ (PStep.sinkFinish ⟨[], true⟩ [5] [] none
        rfl rfl rfl)) ?_
    exact Relation.ReflTransGen.refl
  exact ⟨hr, rfl, run_nil_joins hr rfl⟩

/-- C8: `NewChain` yields no chain (`nil`) when the producer or the
consumer is absent; given both, it yields a chain holding exactly those
components, the given conduit pipe and capacity, with the error flag
clear and an empty `Errs`. -/
theorem newChain_spec {P K W : Type} (pipe : List K) (sz : Nat) :
    (∀ c : Option W, NewChain (none : Option P) pipe c sz = none) ∧
    (∀ p : Option P, NewChain p pipe (none : Option W) sz = none) ∧
    (∀ (pv : P) (cv : W), NewChain (some pv) pipe (some cv) sz =
      some ⟨sz, false, pv, cv, pipe, []⟩) := by
  refine ⟨fun c => ?_, fun p => ?_, fun pv cv => rfl⟩
  · cases c <;> rfl
  · cases p <;> rfl

end Conduit
